import Mathlib

/-!
Shallow embedding of the action-coordination and reconciliation engine of the
Mobidictum admin management system.

The embedded code comes from:
  * `src/Backend/app/services/action_processor.py` (class `ActionProcessor`)
  * `src/app/services/fienta_monitor.py` (class `FientaMonitorService`)

Conventions of the embedding:
  * Python `dict` metadata maps become association lists `Meta` over `MVal`
    (strings, naturals, booleans and `null` for Python `None`); `mset`
    implements `{**m, k: v}` overwrite semantics and `merase` implements
    `dict.pop`.
  * Supabase table calls become pure list operations: `.eq` filters are
    equality filters, `.update` patches every matching row, `.insert`
    appends, `.delete` removes matching rows, and reading `.data[0]`
    becomes `getByCode` (first matching row).
  * Wall-clock timestamps are threaded as an opaque `now : String`.
  * The browser-automation subprocess results are oracles: `del : String →
    Bool` gives the outcome of the Playwright delete run for a code, and
    `sc : String → Option (Option String × Option String)` gives the match
    (discountId, editUrl) found by the one-off `scrape-code-details` run
    (`none` models a failed scrape, missing output, parse error or no
    matching row).
  * Raised Python exceptions are modelled as an `Option String` carried in
    the result (`raised`); log-file artifacts are collected in `logs` and
    gateway operation invocations in `calls`.
  * The floating point `usage_percentage` metadata value is abstracted to an
    integer number of tenths of a percent.
-/

/-- A metadata value: Python str / int / bool / None. -/
inductive MVal where
  | s (v : String)
  | n (v : Nat)
  | b (v : Bool)
  | null
deriving DecidableEq, Repr

/-- A Python dict used as a metadata attribute map. -/
abbrev Meta := List (String × MVal)

/-- `m.get(k)`: `none` when the key is absent. -/
def mget (m : Meta) (k : String) : Option MVal :=
  (m.find? (fun p => p.1 = k)).map (·.2)

/-- `{**m, k: v}`: set `k` to `v`, overwriting any previous binding. -/
def mset (m : Meta) (k : String) (v : MVal) : Meta :=
  (k, v) :: m.filter (fun p => ¬ p.1 = k)

/-- `m.pop(k, None)`: remove the binding for `k`. -/
def merase (m : Meta) (k : String) : Meta :=
  m.filter (fun p => ¬ p.1 = k)

/-- Set several keys in order (later entries override earlier ones). -/
def msets (m : Meta) (kvs : List (String × MVal)) : Meta :=
  kvs.foldl (fun acc kv => mset acc kv.1 kv.2) m

/-- Python truthiness of a metadata value. -/
def mtruthy : MVal → Bool
  | .s v => ¬ v = ""
  | .n v => ¬ v = 0
  | .b v => v
  | .null => false

/-- Python truthiness of `m.get(k)` (absent keys are falsy). -/
def truthy (o : Option MVal) : Bool :=
  match o with
  | some v => mtruthy v
  | none => false

/-- Python truthiness of an optional string (absent or empty is falsy). -/
def struthy (o : Option String) : Bool :=
  match o with
  | some v => ¬ v = ""
  | none => false

/-- Render a metadata value where the source uses it as a string. -/
def mvalStr : MVal → String
  | .s v => v
  | .n v => toString v
  | .b true => "True"
  | .b false => "False"
  | .null => "None"

/-- Embed an optional Python string (e.g. `match.get('discountId')`). -/
def optMVal : Option String → MVal
  | some v => .s v
  | none => .null

/-- jsonb containment filter `.contains("metadata", {k: v})`. -/
def metaContains (m : Meta) (k v : String) : Prop :=
  mget m k = some (.s v)

instance (m : Meta) (k v : String) : Decidable (metaContains m k v) := by
  unfold metaContains; infer_instance

/-- One row of the `codes` table. -/
structure CodeRow where
  code : String
  ctype : String
  status : String
  metadata : Meta
  updatedAt : Option String
deriving DecidableEq, Repr

/-- The `codes` table. -/
abbrev Store := List CodeRow

/-- `.select(...).eq('code', c).execute().data[0]`: first matching row. -/
def getByCode (st : Store) (c : String) : Option CodeRow :=
  st.find? (fun r => r.code = c)

/-- `.update(patch).eq('code', c)`: patch every row whose code is `c`. -/
def updateByCode (st : Store) (c : String) (f : CodeRow → CodeRow) : Store :=
  st.map (fun r => if r.code = c then f r else r)

/-- `.delete().eq('code', c)`: remove every row whose code is `c`. -/
def deleteByCode (st : Store) (c : String) : Store :=
  st.filter (fun r => ¬ r.code = c)

/-- `.insert(row)`: append a row. -/
def insertRow (st : Store) (r : CodeRow) : Store :=
  st ++ [r]

/-- The four pending-intent statuses of the state machine. -/
def pendingStatuses : List String :=
  ["creating", "deleting", "updating", "renaming"]

/-- The data-model invariant that the textual code is a unique natural key. -/
def CodesNodup (st : Store) : Prop :=
  (st.map (·.code)).Nodup

/-- Outcome of `_run_fienta_operation`: boolean success plus the number of
browser-automation subprocess invocations it performed. -/
structure GwResult where
  success : Bool
  subprocessRuns : Nat
deriving DecidableEq, Repr

/-- `ActionProcessor._delete_code_in_fienta`: refuses when the discount id is
falsy, otherwise runs the Playwright deletion subprocess once and reports its
outcome (given by the oracle `del`). -/
def deleteCodeInFienta (del : String → Bool) (code : String)
    (discountId : Option MVal) : GwResult :=
  if truthy discountId then ⟨del code, 1⟩ else ⟨false, 0⟩

/-- `ActionProcessor._run_fienta_operation`: only `delete-code` performs real
browser automation; `create-code` / `update-code` / `rename-code` are logged as
pending implementations and report success unconditionally; any other
operation name fails. -/
def runFientaOperation (del : String → Bool) (op : String) (code : String)
    (discountId : Option MVal) : GwResult :=
  if op = "delete-code" then
    deleteCodeInFienta del code discountId
  else if op = "create-code" ∨ op = "update-code" ∨ op = "rename-code" then
    ⟨true, 0⟩
  else
    ⟨false, 0⟩

/-- Result of one per-row handler of the Action Processor: the store after its
writes, the gateway operations it invoked (in order), the log artifacts it
wrote, and the exception it let escape (if any). -/
structure HRes where
  store : Store
  calls : List String
  logs : List String
  raised : Option String
deriving DecidableEq, Repr

/-- `ActionProcessor._mark_action_failed`: re-read the current metadata, merge
in `action_failed` / `action_error` / `failed_at`, and reset the status to
`previous_status`. -/
def markActionFailed (st : Store) (code error prevStatus now : String) : Store :=
  let existing : Meta := ((getByCode st code).map (·.metadata)).getD []
  let updated := msets existing
    [("action_failed", .b true), ("action_error", .s error), ("failed_at", .s now)]
  updateByCode st code (fun r =>
    { r with status := prevStatus, metadata := updated, updatedAt := some now })

/-- `ActionProcessor._handle_code_creation`: extract creation parameters (with
their defaults), call the gateway, and on success set the row to `active`,
folding the non-`None` parameters and the `created_in_fienta_at` stamp into
its metadata. -/
def handleCodeCreation (del : String → Bool) (st : Store) (row : CodeRow)
    (now : String) : HRes :=
  let meta := row.metadata
  let creationParams : List (String × MVal) :=
    [("discount_percent", (mget meta "discount_percent").getD (.n 10)),
     ("discount_amount", (mget meta "discount_amount").getD .null),
     ("max_uses", (mget meta "max_uses").getD (.n 1)),
     ("expires_at", (mget meta "expires_at").getD .null),
     ("description",
       (mget meta "description").getD (.s ("Auto-created code " ++ row.code)))]
  let gw := runFientaOperation del "create-code" row.code none
  if gw.success then
    let newMeta :=
      msets (msets meta
          [("created_in_fienta_at", .s now), ("creation_method", .s "api_request")])
        (creationParams.filter (fun p => ¬ p.2 = .null))
    let st1 := updateByCode st row.code (fun r =>
      { r with status := "active", metadata := newMeta, updatedAt := some now })
    ⟨st1, ["create-code"], [], none⟩
  else
    ⟨st, ["create-code"], [], some "Failed to create code in Fienta"⟩

/-- The five fields whose `new_<field>` staged values `_handle_code_update`
looks for. -/
def updatableFields : List String :=
  ["discount_percent", "discount_amount", "max_uses", "expires_at", "description"]

/-- `ActionProcessor._handle_code_update`: collect the staged `new_<field>`
values; with none staged the handler is a warned no-op; otherwise call the
gateway and on success promote each staged value to its field, strip the
`new_` keys, stamp `updated_in_fienta_at`, and set the row `active`. -/
def handleCodeUpdate (del : String → Bool) (st : Store) (row : CodeRow)
    (now : String) : HRes :=
  let meta := row.metadata
  let fields := updatableFields
  let updateParams : List (String × MVal) :=
    fields.filterMap (fun f => (mget meta ("new_" ++ f)).map (fun v => (f, v)))
  if updateParams = [] then
    ⟨st, [], [], none⟩
  else
    let gw := runFientaOperation del "update-code" row.code none
    if gw.success then
      let promoted := updateParams.foldl
        (fun acc p => merase (mset acc p.1 p.2) ("new_" ++ p.1)) meta
      let newMeta := msets promoted
        [("updated_in_fienta_at", .s now), ("update_method", .s "api_request")]
      let st1 := updateByCode st row.code (fun r =>
        { r with status := "active", metadata := newMeta, updatedAt := some now })
      ⟨st1, ["update-code"], [], none⟩
    else
      ⟨st, ["update-code"], [], some "Failed to update code in Fienta"⟩

/-- `ActionProcessor._handle_code_rename`: a falsy `new_code` is a hard
failure; otherwise call the gateway and on success delete the old row and
insert a row under the new code carrying the metadata forward together with a
`renamed_from` stamp. -/
def handleCodeRename (del : String → Bool) (st : Store) (row : CodeRow)
    (now : String) : HRes :=
  let meta := row.metadata
  let newCodeVal := mget meta "new_code"
  if truthy newCodeVal then
    let newCode := mvalStr (newCodeVal.getD .null)
    let gw := runFientaOperation del "rename-code" row.code none
    if gw.success then
      let newRecord : CodeRow :=
        { row with
          code := newCode
          status := "active"
          updatedAt := some now
          metadata := msets meta
            [("renamed_from", .s row.code),
             ("renamed_in_fienta_at", .s now),
             ("rename_method", .s "api_request")] }
      let st1 := insertRow (deleteByCode st row.code) newRecord
      ⟨st1, ["rename-code"], [], none⟩
    else
      ⟨st, ["rename-code"], [], some "Failed to rename code in Fienta"⟩
  else
    ⟨st, [], [], some "No new_code specified in metadata for rename operation"⟩

/-- `ActionProcessor._resolve_fienta_code_identifiers`: first re-read the
row's own metadata (both identifiers may have been populated concurrently);
failing that, run the one-off `scrape-code-details` gateway query, and when
the scraped match carries at least one identifier, persist the pair onto the
row before returning it. Returns the store, the gateway calls made, and the
resolved `(discount_id, edit_url)` pair (or `none`). -/
def resolveFientaCodeIdentifiers (sc : String → Option (Option String × Option String))
    (st : Store) (code now : String) :
    Store × List String × Option (Option String × Option String) :=
  let fromDb : Option (Option String × Option String) :=
    match getByCode st code with
    | some r =>
      let did := mget r.metadata "fienta_discount_id"
      let eurl := mget r.metadata "fienta_edit_url"
      if truthy did ∧ truthy eurl then
        some (some (mvalStr (did.getD .null)), some (mvalStr (eurl.getD .null)))
      else none
    | none => none
  match fromDb with
  | some pair => (st, [], some pair)
  | none =>
    match sc code with
    | some (did, eurl) =>
      if struthy did ∨ struthy eurl then
        let current : Meta := ((getByCode st code).map (·.metadata)).getD []
        let merged := msets current
          [("fienta_discount_id", optMVal did), ("fienta_edit_url", optMVal eurl)]
        let st1 := updateByCode st code (fun r =>
          { r with metadata := merged, updatedAt := some now })
        (st1, ["scrape-code-details"], some (did, eurl))
      else
        (st, ["scrape-code-details"], none)
    | none => (st, ["scrape-code-details"], none)

/-- `ActionProcessor._handle_code_deletion`: re-check the current status and
abort silently if it is no longer `deleting`; resolve missing Fienta
identifiers (persisting anything resolved); without a discount id, mark the
action failed — reverting to the recorded `previous_status`, defaulting to the
dispatched row's status — and write a standalone failure log; otherwise invoke
the `delete-code` gateway operation and either stamp the row `deleted` or mark
the action failed with `previous_status` hardcoded to `active` and raise. -/
def handleCodeDeletion (del : String → Bool)
    (sc : String → Option (Option String × Option String))
    (st : Store) (row : CodeRow) (now : String) : HRes :=
  let meta := row.metadata
  let deletionSource := (mget meta "deletion_source").getD (.s "unknown")
  let deletionMethod := (mget meta "deletion_method").getD (.s "unknown")
  let abortForRace : Bool :=
    match getByCode st row.code with
    | some current => ¬ current.status = "deleting"
    | none => false
  if abortForRace then
    ⟨st, [], [], none⟩
  else
    let did0 := mget meta "fienta_discount_id"
    let eurl0 := mget meta "fienta_edit_url"
    let resolved :=
      if ¬ truthy did0 ∨ ¬ truthy eurl0 then
        let r := resolveFientaCodeIdentifiers sc st row.code now
        match r.2.2 with
        | some pair =>
          let did1 := if truthy did0 then did0 else pair.1.map MVal.s
          let eurl1 := if truthy eurl0 then eurl0 else pair.2.map MVal.s
          let meta1 :=
            let m0 := meta
            let m1 := if truthy did1 then mset m0 "fienta_discount_id" (did1.getD .null) else m0
            if truthy eurl1 then mset m1 "fienta_edit_url" (eurl1.getD .null) else m1
          let stPersist := updateByCode r.1 row.code (fun rr =>
            { rr with metadata := meta1, updatedAt := some now })
          (stPersist, r.2.1, did1, eurl1)
        | none => (r.1, r.2.1, did0, eurl0)
      else
        (st, [], did0, eurl0)
    let st1 := resolved.1
    let calls1 := resolved.2.1
    let did1 := resolved.2.2.1
    if ¬ truthy did1 then
      let prev :=
        match mget meta "previous_status" with
        | some v => mvalStr v
        | none => row.status
      let st2 := markActionFailed st1 row.code
        "Missing fienta_discount_id; cannot delete in Fienta" prev now
      ⟨st2, calls1, ["fienta_delete_abort_log"], none⟩
    else
      let gw := runFientaOperation del "delete-code" row.code did1
      let calls2 := calls1 ++ ["delete-code"]
      if gw.success then
        let completion := msets meta
          [("deleted_in_fienta_at", .s now),
           ("deletion_completed_by", .s "action_processor"),
           ("deletion_source", deletionSource),
           ("deletion_method", deletionMethod),
           ("coordination_completed", .s now)]
        let st2 := updateByCode st1 row.code (fun rr =>
          { rr with status := "deleted", metadata := completion, updatedAt := some now })
        ⟨st2, calls2, ["fienta_delete_output_log"], none⟩
      else
        let st2 := markActionFailed st1 row.code
          "Playwright deletion did not complete" "active" now
        ⟨st2, calls2, ["fienta_delete_output_log"],
          some "Failed to delete code from Fienta"⟩

/-- `ActionProcessor._process_single_code_action`: dispatch on the row's
status, falling back to the `action` metadata field; when the dispatched
handler raises, mark the action failed with the dispatch-time status
(`code_record.get('status', 'active')`) as the revert target and re-raise. -/
def processSingleCodeAction (del : String → Bool)
    (sc : String → Option (Option String × Option String))
    (st : Store) (row : CodeRow) (now : String) : HRes :=
  let action := mget row.metadata "action"
  let h : HRes :=
    if row.status = "creating" ∨ action = some (.s "create") then
      handleCodeCreation del st row now
    else if row.status = "deleting" ∨ action = some (.s "delete") then
      handleCodeDeletion del sc st row now
    else if row.status = "updating" ∨ action = some (.s "update") then
      handleCodeUpdate del st row now
    else if row.status = "renaming" ∨ action = some (.s "rename") then
      handleCodeRename del st row now
    else
      ⟨st, [], [], none⟩
  match h.raised with
  | some e => { h with store := markActionFailed h.store row.code e row.status now }
  | none => h

/-- One iteration of the `ActionProcessor._process_code_actions` loop: process
one snapshot row (its exception, if any, is caught here) and count it only
when no exception escaped. -/
def codeActionStep (del : String → Bool)
    (sc : String → Option (Option String × Option String))
    (now : String) (acc : Store × Nat) (row : CodeRow) : Store × Nat :=
  let h := processSingleCodeAction del sc acc.1 row now
  (h.store, if h.raised = none then acc.2 + 1 else acc.2)

/-- `ActionProcessor._process_code_actions`: select the snapshot of rows in a
pending-intent status, process them sequentially (each per-row exception is
caught and processing continues), and count the rows processed without an
exception. -/
def processCodeActions (del : String → Bool)
    (sc : String → Option (Option String × Option String))
    (st : Store) (now : String) : Store × Nat :=
  let pending := st.filter (fun r => decide (r.status ∈ pendingStatuses))
  pending.foldl (codeActionStep del sc now) (st, 0)

/-- One row of the `orders` table (the fields the processor touches). -/
structure OrderRow where
  externalId : String
  status : String
  metadata : Meta
deriving DecidableEq, Repr

/-- One row of the `links` table (the fields the processor touches). -/
structure LinkRow where
  id : String
  originalUrl : String
  shortUrl : Option String
  metadata : Meta
deriving DecidableEq, Repr

/-- One row of the `organizations` table (the fields the processor touches). -/
structure OrgRow where
  id : String
  metadata : Meta
deriving DecidableEq, Repr

/-- `ActionProcessor._process_order_action`: on an `update_status` action with
a truthy `new_status`, set the order's status, drop the `action` key and stamp
`status_updated_at`. -/
def processOrderAction (os : List OrderRow) (record : OrderRow) (now : String) :
    List OrderRow :=
  let meta := record.metadata
  if mget meta "action" = some (.s "update_status") then
    let newStatus := mget meta "new_status"
    if truthy newStatus then
      let updated := mset (merase meta "action") "status_updated_at" (.s now)
      os.map (fun r =>
        if r.externalId = record.externalId then
          { r with status := mvalStr (newStatus.getD .null), metadata := updated }
        else r)
    else os
  else os

/-- One iteration of the `ActionProcessor._process_order_actions` loop. -/
def orderActionStep (now : String) (acc : List OrderRow × Nat) (r : OrderRow) :
    List OrderRow × Nat :=
  (processOrderAction acc.1 r now, acc.2 + 1)

/-- `ActionProcessor._process_order_actions`: the metadata-contains query is
guarded — a store/schema failure degrades the category to zero processed. -/
def processOrderActions (queryFails : Bool) (os : List OrderRow) (now : String) :
    List OrderRow × Nat :=
  if queryFails then (os, 0)
  else
    let pending := os.filter (fun r => decide (metaContains r.metadata "action" "update_status"))
    pending.foldl (orderActionStep now) (os, 0)

/-- `ActionProcessor._process_link_action`: on a `create_short_url` action,
store a generated short URL, drop the `action` key and stamp
`short_url_created_at`. -/
def processLinkAction (ls : List LinkRow) (record : LinkRow) (now : String) :
    List LinkRow :=
  let meta := record.metadata
  if mget meta "action" = some (.s "create_short_url") then
    let shortUrl := "https://short.ly/" ++ record.id.take 8
    let updated := mset (merase meta "action") "short_url_created_at" (.s now)
    ls.map (fun r =>
      if r.id = record.id then
        { r with shortUrl := some shortUrl, metadata := updated }
      else r)
  else ls

/-- One iteration of the `ActionProcessor._process_link_actions` loop. -/
def linkActionStep (now : String) (acc : List LinkRow × Nat) (r : LinkRow) :
    List LinkRow × Nat :=
  (processLinkAction acc.1 r now, acc.2 + 1)

/-- `ActionProcessor._process_link_actions`: guarded query, sequential rows. -/
def processLinkActions (queryFails : Bool) (ls : List LinkRow) (now : String) :
    List LinkRow × Nat :=
  if queryFails then (ls, 0)
  else
    let pending := ls.filter (fun r => decide (metaContains r.metadata "action" "create_short_url"))
    pending.foldl (linkActionStep now) (ls, 0)

/-- `ActionProcessor._process_organization_action`: on a `sync_to_external`
action, drop the `action` key and stamp `synced_at`. -/
def processOrganizationAction (gs : List OrgRow) (record : OrgRow) (now : String) :
    List OrgRow :=
  let meta := record.metadata
  if mget meta "action" = some (.s "sync_to_external") then
    let updated := mset (merase meta "action") "synced_at" (.s now)
    gs.map (fun r => if r.id = record.id then { r with metadata := updated } else r)
  else gs

/-- One iteration of the `ActionProcessor._process_organization_actions` loop. -/
def orgActionStep (now : String) (acc : List OrgRow × Nat) (r : OrgRow) :
    List OrgRow × Nat :=
  (processOrganizationAction acc.1 r now, acc.2 + 1)

/-- `ActionProcessor._process_organization_actions`: guarded query. -/
def processOrganizationActions (queryFails : Bool) (gs : List OrgRow) (now : String) :
    List OrgRow × Nat :=
  if queryFails then (gs, 0)
  else
    let pending := gs.filter (fun r => decide (metaContains r.metadata "action" "sync_to_external"))
    pending.foldl (orgActionStep now) (gs, 0)

/-- The record store seen by one Action Processor pass. -/
structure DB where
  codes : Store
  orders : List OrderRow
  links : List LinkRow
  orgs : List OrgRow
deriving DecidableEq, Repr

/-- Which category-level store queries raise during a pass. -/
structure QFail where
  codesQ : Bool
  ordersQ : Bool
  linksQ : Bool
  orgsQ : Bool
deriving DecidableEq, Repr

/-- All four queries succeed. -/
def QFail.nofail : QFail := ⟨false, false, false, false⟩

/-- The per-category processed counts of a successful pass. -/
structure PassCounts where
  codes : Nat
  orders : Nat
  links : Nat
  orgs : Nat
deriving DecidableEq, Repr

/-- The envelope returned by `process_pending_actions` together with the
resulting store: on success the per-category counts, on an uncaught
category-level exception a `success = false` envelope with the error. -/
structure PassResult where
  success : Bool
  counts : Option PassCounts
  error : Option String
  db : DB
deriving DecidableEq, Repr

/-- `ActionProcessor.process_pending_actions`: the four categories run in
sequence inside one `try`; the `codes` query is the only unguarded one, so its
failure raises past the category into the top-level handler, which returns a
`success = false` envelope (never an exception) with the remaining categories
unprocessed. -/
def processPendingActions (del : String → Bool)
    (sc : String → Option (Option String × Option String))
    (qf : QFail) (db : DB) (now : String) : PassResult :=
  if qf.codesQ then
    ⟨false, none, some "codes query failed", db⟩
  else
    let rc := processCodeActions del sc db.codes now
    let ro := processOrderActions qf.ordersQ db.orders now
    let rl := processLinkActions qf.linksQ db.links now
    let rg := processOrganizationActions qf.orgsQ db.orgs now
    ⟨true, some ⟨rc.2, ro.2, rl.2, rg.2⟩, none, ⟨rc.1, ro.1, rl.1, rg.1⟩⟩

/-- One element of the scraped code-usage JSON consumed by the monitor; absent
JSON fields are `none` (the source reads them with `.get` defaults). -/
structure ScrapedCode where
  code : String
  ordersUsed : Option Nat
  orderLimit : Option Nat
  ticketsUsed : Option Nat
  ticketLimit : Option Nat
  discountId : Option String
  editUrl : Option String
deriving DecidableEq, Repr

/-- The status the sync step computes for a scraped code:
`'active' if ordersUsed < orderLimit else 'used'` (with `.get` defaults 0/1). -/
def syncStatus (cdta : ScrapedCode) : String :=
  if cdta.ordersUsed.getD 0 < cdta.orderLimit.getD 1 then "active" else "used"

/-- The metadata the sync step writes for a scraped code (replacing the whole
metadata column; the floating-point `usage_percentage` is abstracted to tenths
of a percent). -/
def syncMetadata (cdta : ScrapedCode) (eventId now : String) : Meta :=
  [("orders_used", .n (cdta.ordersUsed.getD 0)),
   ("order_limit", .n (cdta.orderLimit.getD 0)),
   ("tickets_used", .n (cdta.ticketsUsed.getD 0)),
   ("ticket_limit", .n (cdta.ticketLimit.getD 0)),
   ("usage_percentage", .n (cdta.ordersUsed.getD 0 * 1000 / max (cdta.orderLimit.getD 1) 1)),
   ("last_scraped", .s now),
   ("fienta_event_id", .s eventId),
   ("fienta_discount_id", optMVal cdta.discountId),
   ("fienta_edit_url", optMVal cdta.editUrl)]

/-- One iteration of the `_sync_codes_to_supabase` loop: upsert one scraped
code — an existing row (any status) is updated in place with the freshly
computed type, status and metadata; an unseen code is inserted. -/
def syncStep (eventId now : String) (acc : Store × Nat) (cdta : ScrapedCode) :
    Store × Nat :=
  let st0 := acc.1
  let newStatus := syncStatus cdta
  let newMeta := syncMetadata cdta eventId now
  match getByCode st0 cdta.code with
  | some _ =>
    (updateByCode st0 cdta.code (fun r =>
      { r with ctype := "discount", status := newStatus, metadata := newMeta }),
     acc.2 + 1)
  | none =>
    (insertRow st0 ⟨cdta.code, "discount", newStatus, newMeta, none⟩, acc.2 + 1)

/-- `FientaMonitorService._sync_codes_to_supabase`: upsert every scraped code
into the store. -/
def syncCodesToSupabase (st : Store) (codesData : List ScrapedCode)
    (eventId now : String) : Store × Nat :=
  codesData.foldl (syncStep eventId now) (st, 0)

/-- `FientaMonitorService._get_existing_metadata`: re-read a row's metadata,
empty when the row is gone. -/
def getExistingMetadata (st : Store) (codeName : String) : Meta :=
  ((getByCode st codeName).map (·.metadata)).getD []

/-- One iteration of the `_cleanup_deleted_codes` loop: a selected code
missing from the scraped set is transitioned to `deleted` with
`monitoring_cleanup` stamps and `deletion_reason = missing_from_fienta`,
preserving its prior metadata. -/
def cleanupStep (fientaCodes : List String) (now : String)
    (acc : Store × Nat) (dbCode : CodeRow) : Store × Nat :=
  if dbCode.code ∉ fientaCodes ∧ dbCode.status = "active" then
    let existing := getExistingMetadata acc.1 dbCode.code
    let cleanupMeta := msets existing
      [("deleted_at", .s now),
       ("deletion_source", .s "monitoring_cleanup"),
       ("deletion_method", .s "monitoring_cleanup"),
       ("deletion_reason", .s "missing_from_fienta"),
       ("deletion_completed_by", .s "fienta_monitor"),
       ("previous_status", .s dbCode.status)]
    (updateByCode acc.1 dbCode.code (fun r =>
      { r with status := "deleted", metadata := cleanupMeta, updatedAt := some now }),
     acc.2 + 1)
  else acc

/-- `FientaMonitorService._cleanup_deleted_codes`: select only rows in stable
`active` status and run the cleanup step over that snapshot. -/
def cleanupDeletedCodes (st : Store) (currentCodesData : List ScrapedCode)
    (now : String) : Store × Nat :=
  let fientaCodes := currentCodesData.map (·.code)
  let activeRows := st.filter (fun r => decide (r.status = "active"))
  activeRows.foldl (cleanupStep fientaCodes now) (st, 0)

/-- One iteration of the `_fast_cleanup_deleted_codes` loop: like the full
cleanup but stamping `fast_monitoring` as source/method, `deletion_reason =
missing_from_fienta_fast_check`, and `previous_status = 'active'`. -/
def fastCleanupStep (fientaCodes : List String) (now : String)
    (acc : Store × Nat) (dbCode : CodeRow) : Store × Nat :=
  if dbCode.code ∉ fientaCodes then
    let existing := getExistingMetadata acc.1 dbCode.code
    let cleanupMeta := msets existing
      [("deleted_at", .s now),
       ("deletion_source", .s "fast_monitoring"),
       ("deletion_method", .s "fast_monitoring"),
       ("deletion_reason", .s "missing_from_fienta_fast_check"),
       ("deletion_completed_by", .s "fienta_monitor"),
       ("previous_status", .s "active")]
    (updateByCode acc.1 dbCode.code (fun r =>
      { r with status := "deleted", metadata := cleanupMeta, updatedAt := some now }),
     acc.2 + 1)
  else acc

/-- `FientaMonitorService._fast_cleanup_deleted_codes`: the same `active`-only
selection, run against the lightweight code-name list. -/
def fastCleanupDeletedCodes (st : Store) (fientaCodes : List String)
    (now : String) : Store × Nat :=
  let activeRows := st.filter (fun r => decide (r.status = "active"))
  activeRows.foldl (fastCleanupStep fientaCodes now) (st, 0)

/-- One iteration of the `_update_codes_metadata` loop: for a code with
captured identifiers, fill in `fienta_discount_id` / `fienta_edit_url` only
when not already present; never touches the status column. -/
def metadataUpdateStep (now : String) (acc : Store × Nat)
    (entry : String × Option String × Option String) : Store × Nat :=
  let code := entry.1
  let captured := entry.2
  match getByCode acc.1 code with
  | some r =>
    let existing := r.metadata
    let step1 :=
      match captured.1 with
      | some v =>
        if ¬ truthy (mget existing "fienta_discount_id") then
          (mset existing "fienta_discount_id" (.s v), true)
        else (existing, false)
      | none => (existing, false)
    let step2 :=
      match captured.2 with
      | some v =>
        if ¬ truthy (mget existing "fienta_edit_url") then
          (mset step1.1 "fienta_edit_url" (.s v), true)
        else step1
      | none => step1
    if step2.2 then
      let final := msets step2.1
        [("metadata_updated_at", .s now), ("metadata_source", .s "fast_monitoring")]
      (updateByCode acc.1 code (fun rr =>
        { rr with metadata := final, updatedAt := some now }),
       acc.2 + 1)
    else acc
  | none => acc

/-- `FientaMonitorService._update_codes_metadata`: run the capture step over
every entry of the captured-identifier map. -/
def updateCodesMetadata (st : Store)
    (metadataCaptured : List (String × Option String × Option String))
    (now : String) : Store × Nat :=
  metadataCaptured.foldl (metadataUpdateStep now) (st, 0)

/-- The success conditions of one pending code row: its `action` marker does
not contradict its status (the request layer writes matching pairs), an
`updating` row has at least one staged field, a `renaming` row has a
non-empty staged `new_code`, and a `deleting` row carries both external
identifiers and its Playwright deletion run succeeds. -/
def CodeRowReady (del : String → Bool) (r : CodeRow) : Prop :=
  mget r.metadata "action" = none ∧
  (r.status = "updating" →
    ∃ f0 ∈ updatableFields, (mget r.metadata ("new_" ++ f0)).isSome) ∧
  (r.status = "renaming" →
    ∃ nc, mget r.metadata "new_code" = some (.s nc) ∧ ¬ nc = "") ∧
  (r.status = "deleting" →
    (∃ d, mget r.metadata "fienta_discount_id" = some (.s d) ∧ ¬ d = "") ∧
    (∃ u, mget r.metadata "fienta_edit_url" = some (.s u) ∧ ¬ u = "") ∧
    del r.code = true)

section Lemmas

/-- Setting a key makes it readable. -/
theorem mget_mset_self (m : Meta) (k : String) (v : MVal) :
    mget (mset m k v) k = some v := by
  simp [mget, mset, List.find?_cons]

/-- `find?` by key is unchanged by filtering out a different key. -/
theorem find?_filter_key_ne (m : Meta) (j k : String) (h : ¬ j = k) :
    (m.filter (fun p => ¬ p.1 = k)).find? (fun p => p.1 = j) =
      m.find? (fun p => p.1 = j) := by
  induction m with
  | nil => rfl
  | cons p t ih =>
    by_cases hp : p.1 = k
    · have hpj : ¬ p.1 = j := fun hj => h (hj.symm.trans hp)
      rw [List.filter_cons_of_neg (by simp [hp]), ih,
        List.find?_cons_of_neg _ (by simp [hpj])]
    · by_cases hj : p.1 = j
      · rw [List.filter_cons_of_pos (by simp [hp]),
          List.find?_cons_of_pos _ (by simp [hj]),
          List.find?_cons_of_pos _ (by simp [hj])]
      · rw [List.filter_cons_of_pos (by simp [hp]),
          List.find?_cons_of_neg _ (by simp [hj]), ih,
          List.find?_cons_of_neg _ (by simp [hj])]

/-- Setting one key does not change the reads of other keys. -/
theorem mget_mset_ne (m : Meta) (j k : String) (v : MVal) (h : ¬ j = k) :
    mget (mset m k v) j = mget m j := by
  have hk : ¬ k = j := fun hkj => h hkj.symm
  unfold mget mset
  rw [List.find?_cons_of_neg _ (by simp [hk]), find?_filter_key_ne m j k h]

/-- Setting a key preserves the presence of every key. -/
theorem mget_isSome_mset (m : Meta) (j k : String) (v : MVal)
    (h : (mget m j).isSome) : (mget (mset m k v) j).isSome := by
  by_cases hjk : j = k
  · subst hjk; simp [mget_mset_self]
  · rw [mget_mset_ne m j k v hjk]; exact h

/-- Setting several keys preserves the presence of every key. -/
theorem mget_isSome_msets (kvs : List (String × MVal)) :
    ∀ (m : Meta) (j : String), (mget m j).isSome →
      (mget (msets m kvs) j).isSome := by
  induction kvs with
  | nil => intro m j h; exact h
  | cons kv t ih =>
    intro m j h
    exact ih (mset m kv.1 kv.2) j (mget_isSome_mset m j kv.1 kv.2 h)

/-- A generic invariant that survives a left fold, tracking the remaining
work list. -/
theorem foldl_inv_rem {α β : Type} (Inv : β → List α → Prop) (step : β → α → β)
    (hstep : ∀ b a l', Inv b (a :: l') → Inv (step b a) l') :
    ∀ (l : List α) (init : β), Inv init l → Inv (l.foldl step init) [] := by
  intro l
  induction l with
  | nil => intro init h; exact h
  | cons a t ih => intro init h; exact ih _ (hstep _ _ _ h)

/-- A generic invariant that survives a left fold. -/
theorem foldl_inv {α β : Type} (Inv : β → Prop) (step : β → α → β)
    (l : List α) (init : β) (h0 : Inv init)
    (hstep : ∀ b a, a ∈ l → Inv b → Inv (step b a)) :
    Inv (l.foldl step init) := by
  induction l generalizing init with
  | nil => exact h0
  | cons a t ih =>
    exact ih (step init a) (hstep init a (List.mem_cons_self a t) h0)
      (fun b x hx hb => hstep b x (List.mem_cons_of_mem a hx) hb)

/-- A row whose code is not targeted survives `updateByCode` unchanged. -/
theorem mem_updateByCode_of_ne {st : Store} {r : CodeRow} {c : String}
    (f : CodeRow → CodeRow) (hr : r ∈ st) (hne : ¬ r.code = c) :
    r ∈ updateByCode st c f := by
  unfold updateByCode
  have h1 : (if r.code = c then f r else r) ∈
      st.map (fun x => if x.code = c then f x else x) :=
    List.mem_map_of_mem _ hr
  simpa [hne] using h1

/-- Reading back the targeted code after `updateByCode` applies the patch to
the first matching row, provided the patch keeps the code field. -/
theorem getByCode_updateByCode_self (st : Store) (c : String)
    (f : CodeRow → CodeRow) (hf : ∀ r, (f r).code = r.code) :
    getByCode (updateByCode st c f) c = (getByCode st c).map f := by
  unfold getByCode updateByCode
  induction st with
  | nil => rfl
  | cons r t ih =>
    by_cases hc : r.code = c
    · rw [List.map_cons,
        List.find?_cons_of_pos _ (by simp [hc, hf]),
        List.find?_cons_of_pos _ (by simp [hc])]
      simp [hc]
    · rw [List.map_cons,
        List.find?_cons_of_neg _ (by simp [hc, hf]),
        List.find?_cons_of_neg _ (by simp [hc]), ih]

/-- Reading a different code after `updateByCode` is unchanged, provided the
patch keeps the code field. -/
theorem getByCode_updateByCode_ne (st : Store) (c j : String)
    (f : CodeRow → CodeRow) (hf : ∀ r, (f r).code = r.code) (h : ¬ j = c) :
    getByCode (updateByCode st c f) j = getByCode st j := by
  unfold getByCode updateByCode
  induction st with
  | nil => rfl
  | cons r t ih =>
    by_cases hc : r.code = c
    · have hrj : ¬ r.code = j := fun hj => h (hj.symm.trans hc)
      have hcj : ¬ c = j := fun hcj => h hcj.symm
      rw [List.map_cons,
        List.find?_cons_of_neg _ (by simp [hc, hf, hcj]),
        List.find?_cons_of_neg _ (by simp [hrj]), ih]
    · by_cases hj : r.code = j
      · rw [List.map_cons,
          List.find?_cons_of_pos _ (by simp [h, hj]),
          List.find?_cons_of_pos _ (by simp [hj])]
        simp [hc]
      · rw [List.map_cons,
          List.find?_cons_of_neg _ (by simp [hc, hj]),
          List.find?_cons_of_neg _ (by simp [hj]), ih]

/-- With unique codes, the first row found for a member's code is that row. -/
theorem getByCode_eq_of_nodup {st : Store} {r : CodeRow}
    (hn : CodesNodup st) (hr : r ∈ st) : getByCode st r.code = some r := by
  unfold getByCode
  induction st with
  | nil => cases hr
  | cons x t ih =>
    have hn1 : (x.code :: t.map (·.code)).Nodup := by
      simpa [CodesNodup] using hn
    rcases List.mem_cons.mp hr with hx | ht
    · subst hx
      exact List.find?_cons_of_pos _ (by simp)
    · have hnt : CodesNodup t := by
        simpa [CodesNodup] using (List.nodup_cons.mp hn1).2
      have hxr : ¬ x.code = r.code := by
        intro hxc
        apply (List.nodup_cons.mp hn1).1
        rw [hxc]
        exact List.mem_map_of_mem (·.code) ht
      rw [List.find?_cons_of_neg _ (by simp [hxr])]
      exact ih hnt ht

end Lemmas

/-- C4: for every code row dispatched to the deletion handler, if the
immediately preceding re-read of the row's current status returns any value
other than `deleting`, the handler returns having made zero Gateway
invocations and zero store writes, leaving the store exactly as the re-read
found it. -/
theorem delete_race_abort (del : String → Bool)
    (sc : String → Option (Option String × Option String))
    (st : Store) (row : CodeRow) (now : String) (current : CodeRow)
    (hread : getByCode st row.code = some current)
    (hst : ¬ current.status = "deleting") :
    handleCodeDeletion del sc st row now = ⟨st, [], [], none⟩ := by
  unfold handleCodeDeletion
  simp [hread, hst]

/-- Witness for `delete_race_abort` at a concrete store: code `X1` is
`deleting` in the dispatched snapshot but an external actor has already set it
back to `active`. -/
theorem delete_race_abort_witness :
    handleCodeDeletion (fun _ => true) (fun _ => none)
      [⟨"X1", "discount", "active", [], none⟩]
      ⟨"X1", "discount", "deleting", [], none⟩ "t0"
      = ⟨[⟨"X1", "discount", "active", [], none⟩], [], [], none⟩ :=
  delete_race_abort (fun _ => true) (fun _ => none)
    [⟨"X1", "discount", "active", [], none⟩]
    ⟨"X1", "discount", "deleting", [], none⟩ "t0"
    ⟨"X1", "discount", "active", [], none⟩ (by rfl) (by decide)

/-- C10: the Gateway dispatcher returns success unconditionally, with zero
browser-automation subprocess runs, for `create-code` / `update-code` /
`rename-code`; consequently a `creating` row (with no contradictory `action`
marker) always takes the success branch and transitions to `active` with no
exception raised. -/
theorem create_update_rename_always_succeed (del : String → Bool)
    (sc : String → Option (Option String × Option String))
    (code : String) (did : Option MVal)
    (st : Store) (row : CodeRow) (now : String) (r0 : CodeRow)
    (hrow : getByCode st row.code = some r0)
    (hstatus : row.status = "creating") :
    runFientaOperation del "create-code" code did = ⟨true, 0⟩ ∧
    runFientaOperation del "update-code" code did = ⟨true, 0⟩ ∧
    runFientaOperation del "rename-code" code did = ⟨true, 0⟩ ∧
    (processSingleCodeAction del sc st row now).raised = none ∧
    ((getByCode (processSingleCodeAction del sc st row now).store row.code).map
      (·.status)) = some "active" := by
  refine ⟨by simp [runFientaOperation], by simp [runFientaOperation],
    by simp [runFientaOperation], ?_, ?_⟩
  · simp [processSingleCodeAction, handleCodeCreation, runFientaOperation, hstatus]
  · simp [processSingleCodeAction, handleCodeCreation, runFientaOperation, hstatus]
    rw [getByCode_updateByCode_self]
    · rw [hrow]
      exact ⟨_, rfl, rfl⟩
    · intro r
      rfl

/-- Witness for `create_update_rename_always_succeed`: a concrete `creating`
row `SPRING10` becomes `active` even under an always-failing delete oracle. -/
theorem create_update_rename_always_succeed_witness :
    runFientaOperation (fun _ => false) "create-code" "SPRING10" none = ⟨true, 0⟩ ∧
    runFientaOperation (fun _ => false) "update-code" "SPRING10" none = ⟨true, 0⟩ ∧
    runFientaOperation (fun _ => false) "rename-code" "SPRING10" none = ⟨true, 0⟩ ∧
    (processSingleCodeAction (fun _ => false) (fun _ => none)
      [⟨"SPRING10", "discount", "creating", [("discount_percent", .n 20)], none⟩]
      ⟨"SPRING10", "discount", "creating", [("discount_percent", .n 20)], none⟩
      "t1").raised = none ∧
    ((getByCode (processSingleCodeAction (fun _ => false) (fun _ => none)
      [⟨"SPRING10", "discount", "creating", [("discount_percent", .n 20)], none⟩]
      ⟨"SPRING10", "discount", "creating", [("discount_percent", .n 20)], none⟩
      "t1").store "SPRING10").map (·.status)) = some "active" :=
  create_update_rename_always_succeed (fun _ => false) (fun _ => none)
    "SPRING10" none
    [⟨"SPRING10", "discount", "creating", [("discount_percent", .n 20)], none⟩]
    ⟨"SPRING10", "discount", "creating", [("discount_percent", .n 20)], none⟩
    "t1"
    ⟨"SPRING10", "discount", "creating", [("discount_percent", .n 20)], none⟩
    (by rfl) (by rfl)

/-- C1: a row in any of the four pending-intent statuses survives both the
full-cycle cleanup and the fast-check cleanup entirely unchanged, because both
cleanups select only rows in stable `active` status. -/
theorem cleanup_partition_invariant (st : Store) (scraped : List ScrapedCode)
    (fienta : List String) (now : String) (r : CodeRow)
    (hn : CodesNodup st) (hr : r ∈ st) (hp : r.status ∈ pendingStatuses) :
    r ∈ (cleanupDeletedCodes st scraped now).1 ∧
    r ∈ (fastCleanupDeletedCodes st fienta now).1 := by
  have hact : ¬ r.status = "active" := by
    simp only [pendingStatuses, List.mem_cons, List.not_mem_nil, or_false] at hp
    rcases hp with h | h | h | h <;> simp [h]
  have hinj := List.inj_on_of_nodup_map (by simpa [CodesNodup] using hn)
  constructor
  · simp only [cleanupDeletedCodes]
    refine foldl_inv (fun (b : Store × Nat) => r ∈ b.1) _ _ (st, 0) hr ?_
    intro b e he hb
    have hef := List.mem_filter.mp he
    have heact : e.status = "active" := by simpa using hef.2
    have hne : ¬ r.code = e.code := by
      intro hc
      exact hact ((hinj hr hef.1 hc) ▸ heact)
    unfold cleanupStep
    split
    · exact mem_updateByCode_of_ne _ hb hne
    · exact hb
  · simp only [fastCleanupDeletedCodes]
    refine foldl_inv (fun (b : Store × Nat) => r ∈ b.1) _ _ (st, 0) hr ?_
    intro b e he hb
    have hef := List.mem_filter.mp he
    have heact : e.status = "active" := by simpa using hef.2
    have hne : ¬ r.code = e.code := by
      intro hc
      exact hact ((hinj hr hef.1 hc) ▸ heact)
    unfold fastCleanupStep
    split
    · exact mem_updateByCode_of_ne _ hb hne
    · exact hb

/-- Witness for `cleanup_partition_invariant`: a `deleting` row survives both
cleanups against an empty external scrape. -/
theorem cleanup_partition_invariant_witness :
    (⟨"P1", "discount", "deleting", [], none⟩ : CodeRow) ∈
      (cleanupDeletedCodes [⟨"P1", "discount", "deleting", [], none⟩] [] "t2").1 ∧
    (⟨"P1", "discount", "deleting", [], none⟩ : CodeRow) ∈
      (fastCleanupDeletedCodes [⟨"P1", "discount", "deleting", [], none⟩] [] "t2").1 :=
  cleanup_partition_invariant [⟨"P1", "discount", "deleting", [], none⟩] [] [] "t2"
    ⟨"P1", "discount", "deleting", [], none⟩
    (by simp [CodesNodup]) (by simp) (by simp [pendingStatuses])

/-- A fold whose every step either leaves the store alone or patches rows of
that step's own code leaves `getByCode` unchanged at any code none of the
steps target. -/
theorem foldl_getByCode_untouched {α : Type} (step : Store × Nat → α → Store × Nat)
    (key : α → String)
    (hshape : ∀ b e, (step b e).1 = b.1 ∨
      ∃ f, (∀ x, (f x).code = x.code) ∧ (step b e).1 = updateByCode b.1 (key e) f)
    (l : List α) (c : String) (hl : ∀ e ∈ l, ¬ c = key e) :
    ∀ b, getByCode (l.foldl step b).1 c = getByCode b.1 c := by
  induction l with
  | nil => intro b; rfl
  | cons e t ih =>
    intro b
    rw [List.foldl_cons]
    rw [ih (fun x hx => hl x (List.mem_cons_of_mem e hx)) (step b e)]
    rcases hshape b e with h | ⟨f, hf, h⟩
    · rw [h]
    · rw [h, getByCode_updateByCode_ne _ _ _ f hf (hl e (List.mem_cons_self e t))]

/-- The full-cycle cleanup step either leaves the store alone or patches only
its own entry's code. -/
theorem cleanupStep_shape (fc : List String) (now : String)
    (b : Store × Nat) (e : CodeRow) :
    (cleanupStep fc now b e).1 = b.1 ∨
    ∃ f, (∀ x, (f x).code = x.code) ∧
      (cleanupStep fc now b e).1 = updateByCode b.1 e.code f := by
  unfold cleanupStep
  by_cases hc : e.code ∉ fc ∧ e.status = "active"
  · right
    refine ⟨fun r =>
      { r with
        status := "deleted"
        metadata := msets (getExistingMetadata b.1 e.code)
          [("deleted_at", .s now), ("deletion_source", .s "monitoring_cleanup"),
           ("deletion_method", .s "monitoring_cleanup"),
           ("deletion_reason", .s "missing_from_fienta"),
           ("deletion_completed_by", .s "fienta_monitor"),
           ("previous_status", .s e.status)]
        updatedAt := some now }, fun x => rfl, ?_⟩
    rw [if_pos hc]
  · left
    rw [if_neg hc]

/-- The fast-check cleanup step either leaves the store alone or patches only
its own entry's code. -/
theorem fastCleanupStep_shape (fc : List String) (now : String)
    (b : Store × Nat) (e : CodeRow) :
    (fastCleanupStep fc now b e).1 = b.1 ∨
    ∃ f, (∀ x, (f x).code = x.code) ∧
      (fastCleanupStep fc now b e).1 = updateByCode b.1 e.code f := by
  unfold fastCleanupStep
  by_cases hc : e.code ∉ fc
  · right
    refine ⟨fun r =>
      { r with
        status := "deleted"
        metadata := msets (getExistingMetadata b.1 e.code)
          [("deleted_at", .s now), ("deletion_source", .s "fast_monitoring"),
           ("deletion_method", .s "fast_monitoring"),
           ("deletion_reason", .s "missing_from_fienta_fast_check"),
           ("deletion_completed_by", .s "fienta_monitor"),
           ("previous_status", .s "active")]
        updatedAt := some now }, fun x => rfl, ?_⟩
    rw [if_pos hc]
  · left
    rw [if_neg hc]

/-- Splitting a code-distinct list around a member separates its code from
every other element's code. -/
theorem split_codes_ne {l : List CodeRow} {r : CodeRow}
    (hnod : (l.map (·.code)).Nodup)
    (l1 l2 : List CodeRow) (hsplit : l = l1 ++ r :: l2) :
    (∀ e ∈ l1, ¬ r.code = e.code) ∧ (∀ e ∈ l2, ¬ r.code = e.code) := by
  subst hsplit
  rw [List.map_append, List.map_cons] at hnod
  have hdis := List.nodup_append.mp hnod
  constructor
  · intro e he heq
    exact hdis.2.2 (by rw [heq]; exact List.mem_map_of_mem (·.code) he)
      (List.mem_cons_self _ _)
  · intro e he heq
    exact (List.nodup_cons.mp hdis.2.1).1
      (by rw [heq]; exact List.mem_map_of_mem (·.code) he)

/-- Filtering preserves distinctness of the code column. -/
theorem filter_codes_nodup (st : Store) (hn : CodesNodup st) (p : CodeRow → Bool) :
    ((st.filter p).map (·.code)).Nodup :=
  List.Nodup.sublist (List.Sublist.map _ (List.filter_sublist st)) hn

/-- Effect of the full-cycle cleanup step on its own (selected, missing)
entry when the store's first row for that code is the entry itself. -/
theorem cleanupStep_hits (fc : List String) (now : String)
    (b : Store × Nat) (e : CodeRow)
    (hcond : e.code ∉ fc ∧ e.status = "active")
    (hget : getByCode b.1 e.code = some e) :
    getByCode (cleanupStep fc now b e).1 e.code = some
      { e with
        status := "deleted"
        metadata := msets e.metadata
          [("deleted_at", .s now), ("deletion_source", .s "monitoring_cleanup"),
           ("deletion_method", .s "monitoring_cleanup"),
           ("deletion_reason", .s "missing_from_fienta"),
           ("deletion_completed_by", .s "fienta_monitor"),
           ("previous_status", .s e.status)]
        updatedAt := some now } := by
  unfold cleanupStep
  rw [if_pos hcond]
  show getByCode (updateByCode b.1 e.code _) e.code = _
  rw [getByCode_updateByCode_self]
  · rw [hget]
    unfold getExistingMetadata
    rw [hget]
    rfl
  · intro x
    rfl

/-- Effect of the fast-check cleanup step on its own (selected, missing)
entry when the store's first row for that code is the entry itself. -/
theorem fastCleanupStep_hits (fc : List String) (now : String)
    (b : Store × Nat) (e : CodeRow)
    (hcond : e.code ∉ fc)
    (hget : getByCode b.1 e.code = some e) :
    getByCode (fastCleanupStep fc now b e).1 e.code = some
      { e with
        status := "deleted"
        metadata := msets e.metadata
          [("deleted_at", .s now), ("deletion_source", .s "fast_monitoring"),
           ("deletion_method", .s "fast_monitoring"),
           ("deletion_reason", .s "missing_from_fienta_fast_check"),
           ("deletion_completed_by", .s "fienta_monitor"),
           ("previous_status", .s "active")]
        updatedAt := some now } := by
  unfold fastCleanupStep
  rw [if_pos hcond]
  show getByCode (updateByCode b.1 e.code _) e.code = _
  rw [getByCode_updateByCode_self]
  · rw [hget]
    unfold getExistingMetadata
    rw [hget]
    rfl
  · intro x
    rfl

/-- The stamped values written by the full-cycle cleanup metadata merge. -/
theorem cleanup_stamp_values (m : Meta) (now stv : String) :
    mget (msets m
      [("deleted_at", .s now), ("deletion_source", .s "monitoring_cleanup"),
       ("deletion_method", .s "monitoring_cleanup"),
       ("deletion_reason", .s "missing_from_fienta"),
       ("deletion_completed_by", .s "fienta_monitor"),
       ("previous_status", .s stv)]) "deletion_source"
      = some (.s "monitoring_cleanup") ∧
    mget (msets m
      [("deleted_at", .s now), ("deletion_source", .s "monitoring_cleanup"),
       ("deletion_method", .s "monitoring_cleanup"),
       ("deletion_reason", .s "missing_from_fienta"),
       ("deletion_completed_by", .s "fienta_monitor"),
       ("previous_status", .s stv)]) "deletion_reason"
      = some (.s "missing_from_fienta") := by
  constructor
  · simp only [msets, List.foldl_cons, List.foldl_nil]
    rw [mget_mset_ne _ _ _ _ (by decide), mget_mset_ne _ _ _ _ (by decide),
      mget_mset_ne _ _ _ _ (by decide), mget_mset_ne _ _ _ _ (by decide),
      mget_mset_self]
  · simp only [msets, List.foldl_cons, List.foldl_nil]
    rw [mget_mset_ne _ _ _ _ (by decide), mget_mset_ne _ _ _ _ (by decide),
      mget_mset_self]

/-- The stamped values written by the fast-check cleanup metadata merge. -/
theorem fast_cleanup_stamp_values (m : Meta) (now : String) :
    mget (msets m
      [("deleted_at", .s now), ("deletion_source", .s "fast_monitoring"),
       ("deletion_method", .s "fast_monitoring"),
       ("deletion_reason", .s "missing_from_fienta_fast_check"),
       ("deletion_completed_by", .s "fienta_monitor"),
       ("previous_status", .s "active")]) "deletion_source"
      = some (.s "fast_monitoring") ∧
    mget (msets m
      [("deleted_at", .s now), ("deletion_source", .s "fast_monitoring"),
       ("deletion_method", .s "fast_monitoring"),
       ("deletion_reason", .s "missing_from_fienta_fast_check"),
       ("deletion_completed_by", .s "fienta_monitor"),
       ("previous_status", .s "active")]) "deletion_reason"
      = some (.s "missing_from_fienta_fast_check") := by
  constructor
  · simp only [msets, List.foldl_cons, List.foldl_nil]
    rw [mget_mset_ne _ _ _ _ (by decide), mget_mset_ne _ _ _ _ (by decide),
      mget_mset_ne _ _ _ _ (by decide), mget_mset_ne _ _ _ _ (by decide),
      mget_mset_self]
  · simp only [msets, List.foldl_cons, List.foldl_nil]
    rw [mget_mset_ne _ _ _ _ (by decide), mget_mset_ne _ _ _ _ (by decide),
      mget_mset_self]

/-- C9 (amended): every locally-active code absent from the current external
scrape is transitioned to `deleted` by both cleanups, with `deletion_source`
set to `monitoring_cleanup` (full cycle) or `fast_monitoring` (fast check),
all pre-existing metadata keys preserved, and `deletion_reason` set to
`missing_from_fienta` by the full-cycle cleanup but to
`missing_from_fienta_fast_check` by the fast-check cleanup. -/
theorem cleanup_stamps_amended (st : Store) (scraped : List ScrapedCode)
    (fienta : List String) (now : String) (r : CodeRow)
    (hn : CodesNodup st) (hr : r ∈ st) (hact : r.status = "active")
    (habs : r.code ∉ scraped.map (·.code)) (habsf : r.code ∉ fienta) :
    (∃ r1, getByCode (cleanupDeletedCodes st scraped now).1 r.code = some r1 ∧
      r1.status = "deleted" ∧
      mget r1.metadata "deletion_source" = some (.s "monitoring_cleanup") ∧
      mget r1.metadata "deletion_reason" = some (.s "missing_from_fienta") ∧
      (∀ k, (mget r.metadata k).isSome → (mget r1.metadata k).isSome)) ∧
    (∃ r2, getByCode (fastCleanupDeletedCodes st fienta now).1 r.code = some r2 ∧
      r2.status = "deleted" ∧
      mget r2.metadata "deletion_source" = some (.s "fast_monitoring") ∧
      mget r2.metadata "deletion_reason" = some (.s "missing_from_fienta_fast_check") ∧
      (∀ k, (mget r.metadata k).isSome → (mget r2.metadata k).isSome)) := by
  have hrf : r ∈ st.filter (fun x => decide (x.status = "active")) :=
    List.mem_filter.mpr ⟨hr, by simp [hact]⟩
  obtain ⟨l1, l2, hsplit⟩ := List.append_of_mem hrf
  have hanod := filter_codes_nodup st hn (fun x => decide (x.status = "active"))
  have hnel := split_codes_ne (hsplit ▸ hanod) l1 l2 rfl
  have hget0 : getByCode st r.code = some r := getByCode_eq_of_nodup hn hr
  constructor
  · simp only [cleanupDeletedCodes]
    rw [hsplit, List.foldl_append, List.foldl_cons]
    have hB := foldl_getByCode_untouched (cleanupStep (scraped.map (·.code)) now)
      (·.code) (cleanupStep_shape (scraped.map (·.code)) now) l1 r.code hnel.1 (st, 0)
    rw [hget0] at hB
    have hmid := cleanupStep_hits (scraped.map (·.code)) now
      (List.foldl (cleanupStep (scraped.map (·.code)) now) (st, 0) l1) r
      ⟨habs, hact⟩ hB
    have hend := foldl_getByCode_untouched (cleanupStep (scraped.map (·.code)) now)
      (·.code) (cleanupStep_shape (scraped.map (·.code)) now) l2 r.code hnel.2
      (cleanupStep (scraped.map (·.code)) now
        (List.foldl (cleanupStep (scraped.map (·.code)) now) (st, 0) l1) r)
    rw [hmid] at hend
    refine ⟨_, hend, rfl, ?_, ?_, ?_⟩
    · exact (cleanup_stamp_values r.metadata now r.status).1
    · exact (cleanup_stamp_values r.metadata now r.status).2
    · intro k hk
      exact mget_isSome_msets _ r.metadata k hk
  · simp only [fastCleanupDeletedCodes]
    rw [hsplit, List.foldl_append, List.foldl_cons]
    have hB := foldl_getByCode_untouched (fastCleanupStep fienta now)
      (·.code) (fastCleanupStep_shape fienta now) l1 r.code hnel.1 (st, 0)
    rw [hget0] at hB
    have hmid := fastCleanupStep_hits fienta now
      (List.foldl (fastCleanupStep fienta now) (st, 0) l1) r habsf hB
    have hend := foldl_getByCode_untouched (fastCleanupStep fienta now)
      (·.code) (fastCleanupStep_shape fienta now) l2 r.code hnel.2
      (fastCleanupStep fienta now
        (List.foldl (fastCleanupStep fienta now) (st, 0) l1) r)
    rw [hmid] at hend
    refine ⟨_, hend, rfl, ?_, ?_, ?_⟩
    · exact (fast_cleanup_stamp_values r.metadata now).1
    · exact (fast_cleanup_stamp_values r.metadata now).2
    · intro k hk
      exact mget_isSome_msets _ r.metadata k hk

/-- Counterexample to C9 as stated: the fast-check cleanup stamps
`deletion_reason = missing_from_fienta_fast_check`, not `missing_from_fienta`,
on a concrete active code `B` missing from the scrape. -/
theorem fast_cleanup_reason_counterexample :
    ((getByCode (fastCleanupDeletedCodes
        [⟨"B", "discount", "active", [], none⟩] [] "t4").1 "B").map
      (fun r => mget r.metadata "deletion_reason"))
      = some (some (.s "missing_from_fienta_fast_check")) ∧
    ¬ ((getByCode (fastCleanupDeletedCodes
        [⟨"B", "discount", "active", [], none⟩] [] "t4").1 "B").map
      (fun r => mget r.metadata "deletion_reason"))
      = some (some (.s "missing_from_fienta")) := by
  constructor
  · rfl
  · decide

/-- Witness for `cleanup_stamps_amended` at a concrete active row `B` with
pre-existing metadata, absent from an empty scrape. -/
theorem cleanup_stamps_amended_witness :
    (∃ r1, getByCode (cleanupDeletedCodes
        [⟨"B", "discount", "active", [("orders_used", .n 1)], none⟩] [] "t5").1 "B"
        = some r1 ∧
      r1.status = "deleted" ∧
      mget r1.metadata "deletion_source" = some (.s "monitoring_cleanup") ∧
      mget r1.metadata "deletion_reason" = some (.s "missing_from_fienta") ∧
      (∀ k, (mget [("orders_used", MVal.n 1)] k).isSome →
        (mget r1.metadata k).isSome)) ∧
    (∃ r2, getByCode (fastCleanupDeletedCodes
        [⟨"B", "discount", "active", [("orders_used", .n 1)], none⟩] [] "t5").1 "B"
        = some r2 ∧
      r2.status = "deleted" ∧
      mget r2.metadata "deletion_source" = some (.s "fast_monitoring") ∧
      mget r2.metadata "deletion_reason" = some (.s "missing_from_fienta_fast_check") ∧
      (∀ k, (mget [("orders_used", MVal.n 1)] k).isSome →
        (mget r2.metadata k).isSome)) :=
  cleanup_stamps_amended
    [⟨"B", "discount", "active", [("orders_used", .n 1)], none⟩] [] [] "t5"
    ⟨"B", "discount", "active", [("orders_used", .n 1)], none⟩
    (by simp [CodesNodup]) (by simp) (by rfl) (by simp) (by simp)

/-- `updateByCode` does not change any row observation that the patch
preserves. -/
theorem map_updateByCode {α : Type} (st : Store) (c : String)
    (f : CodeRow → CodeRow) (g : CodeRow → α) (hg : ∀ x, g (f x) = g x) :
    (updateByCode st c f).map g = st.map g := by
  unfold updateByCode
  rw [List.map_map]
  apply List.map_congr_left
  intro a _
  by_cases hc : a.code = c
  · simp [Function.comp, hc, hg]
  · simp [Function.comp, hc]

/-- A row survives the insertion of another row. -/
theorem mem_insertRow {st : Store} {r x : CodeRow} (h : r ∈ st) :
    r ∈ insertRow st x :=
  List.mem_append_left _ h

/-- Any row whose status is not `active` survives both cleanup passes
entirely unchanged (shared engine for the partition and terminal-deletion
claims). -/
theorem mem_cleanups_of_not_active (st : Store) (scraped : List ScrapedCode)
    (fienta : List String) (now : String) (r : CodeRow)
    (hn : CodesNodup st) (hr : r ∈ st) (hact : ¬ r.status = "active") :
    r ∈ (cleanupDeletedCodes st scraped now).1 ∧
    r ∈ (fastCleanupDeletedCodes st fienta now).1 := by
  have hinj := List.inj_on_of_nodup_map (by simpa [CodesNodup] using hn)
  constructor
  · simp only [cleanupDeletedCodes]
    refine foldl_inv (fun (b : Store × Nat) => r ∈ b.1) _ _ (st, 0) hr ?_
    intro b e he hb
    have hef := List.mem_filter.mp he
    have heact : e.status = "active" := by simpa using hef.2
    have hne : ¬ r.code = e.code := by
      intro hc
      exact hact ((hinj hr hef.1 hc) ▸ heact)
    unfold cleanupStep
    split
    · exact mem_updateByCode_of_ne _ hb hne
    · exact hb
  · simp only [fastCleanupDeletedCodes]
    refine foldl_inv (fun (b : Store × Nat) => r ∈ b.1) _ _ (st, 0) hr ?_
    intro b e he hb
    have hef := List.mem_filter.mp he
    have heact : e.status = "active" := by simpa using hef.2
    have hne : ¬ r.code = e.code := by
      intro hc
      exact hact ((hinj hr hef.1 hc) ▸ heact)
    unfold fastCleanupStep
    split
    · exact mem_updateByCode_of_ne _ hb hne
    · exact hb

/-- The fast-check metadata capture step never changes any row's code or
status. -/
theorem metadataUpdateStep_preserves_status (now : String) (b : Store × Nat)
    (entry : String × Option String × Option String) :
    (metadataUpdateStep now b entry).1.map (fun x => (x.code, x.status))
      = b.1.map (fun x => (x.code, x.status)) := by
  unfold metadataUpdateStep
  rcases hg : getByCode b.1 entry.1 with _ | r
  · simp only [hg]
  · simp only [hg]
    repeat' split
    all_goals
      first
        | rfl
        | (apply map_updateByCode
           intro x
           rfl)

/-- A row none of whose scraped entries share its code survives the sync
upsert loop. -/
theorem mem_sync_of_absent (st : Store) (scraped : List ScrapedCode)
    (eventId now : String) (r : CodeRow) (hr : r ∈ st)
    (habs : ∀ e ∈ scraped, ¬ e.code = r.code) :
    r ∈ (syncCodesToSupabase st scraped eventId now).1 := by
  simp only [syncCodesToSupabase]
  refine foldl_inv (fun (b : Store × Nat) => r ∈ b.1) _ _ (st, 0) hr ?_
  intro b e he hb
  have hne : ¬ r.code = e.code := fun hc => habs e he (hc.symm)
  unfold syncStep
  rcases hg : getByCode b.1 e.code with _ | x
  · simp only [hg]
    exact mem_insertRow hb
  · simp only [hg]
    exact mem_updateByCode_of_ne _ hb hne

/-- Syncing a single scraped entry for an existing row overwrites that row's
status with the freshly computed one, whatever the old status was. -/
theorem sync_overwrites_status (st : Store) (cdta : ScrapedCode)
    (eventId now : String) (r : CodeRow)
    (hn : CodesNodup st) (hr : r ∈ st) (hcode : cdta.code = r.code) :
    ((getByCode (syncCodesToSupabase st [cdta] eventId now).1 r.code).map
      (·.status)) = some (syncStatus cdta) := by
  have hget0 : getByCode st r.code = some r := getByCode_eq_of_nodup hn hr
  have hget1 : getByCode st cdta.code = some r := by rw [hcode]; exact hget0
  simp only [syncCodesToSupabase, List.foldl_cons, List.foldl_nil]
  unfold syncStep
  simp only [hget1]
  rw [← hcode]
  rw [getByCode_updateByCode_self]
  · rw [hget1]
    rfl
  · intro x
    rfl

/-- C2 (amended): a `deleted` row is never touched by the cleanup passes, the
fast-check cleanup, or the fast-check metadata capture (which never changes
any status), and the code-sync upsert leaves it alone while its code stays
absent from the scrape; but when the same code value appears in the external
scrape, the code-sync upsert overwrites the row's status with the freshly
computed `active`/`used` value, resurrecting the deleted row. -/
theorem deleted_terminal_amended (st : Store) (scraped : List ScrapedCode)
    (fienta : List String)
    (captured : List (String × Option String × Option String))
    (eventId now : String) (r : CodeRow) (cdta : ScrapedCode)
    (hn : CodesNodup st) (hr : r ∈ st) (hdel : r.status = "deleted")
    (habs : ∀ e ∈ scraped, ¬ e.code = r.code)
    (hcode : cdta.code = r.code) :
    r ∈ (cleanupDeletedCodes st scraped now).1 ∧
    r ∈ (fastCleanupDeletedCodes st fienta now).1 ∧
    ((updateCodesMetadata st captured now).1.map (fun x => (x.code, x.status))
      = st.map (fun x => (x.code, x.status))) ∧
    r ∈ (syncCodesToSupabase st scraped eventId now).1 ∧
    ((getByCode (syncCodesToSupabase st [cdta] eventId now).1 r.code).map
      (·.status)) = some (syncStatus cdta) ∧
    (syncStatus cdta = "active" ∨ syncStatus cdta = "used") := by
  have hact : ¬ r.status = "active" := by simp [hdel]
  have hcls := mem_cleanups_of_not_active st scraped fienta now r hn hr hact
  refine ⟨hcls.1, hcls.2, ?_, ?_, ?_, ?_⟩
  · simp only [updateCodesMetadata]
    refine foldl_inv (fun (b : Store × Nat) =>
      b.1.map (fun x => (x.code, x.status)) = st.map (fun x => (x.code, x.status)))
      _ _ (st, 0) rfl ?_
    intro b e _ hb
    rw [metadataUpdateStep_preserves_status, hb]
  · exact mem_sync_of_absent st scraped eventId now r hr habs
  · exact sync_overwrites_status st cdta eventId now r hn hr hcode
  · unfold syncStatus
    split
    · exact Or.inl rfl
    · exact Or.inr rfl

/-- Counterexample to C2 as stated: a concrete `deleted` row `A` whose code
value appears in the scrape is set back to `active` by the code-sync step. -/
theorem sync_resurrects_deleted_counterexample :
    ((getByCode (syncCodesToSupabase
        [⟨"A", "discount", "deleted", [("deletion_reason", .s "missing_from_fienta")], none⟩]
        [⟨"A", some 0, some 1, some 0, some 0, none, none⟩] "118714" "t6").1 "A").map
      (·.status)) = some "active" ∧
    ¬ ((getByCode (syncCodesToSupabase
        [⟨"A", "discount", "deleted", [("deletion_reason", .s "missing_from_fienta")], none⟩]
        [⟨"A", some 0, some 1, some 0, some 0, none, none⟩] "118714" "t6").1 "A").map
      (·.status)) = some "deleted" := by
  constructor
  · rfl
  · decide

/-- Witness for `deleted_terminal_amended` at a concrete deleted row `A`. -/
theorem deleted_terminal_amended_witness :
    (⟨"A", "discount", "deleted", [], none⟩ : CodeRow) ∈
      (cleanupDeletedCodes [⟨"A", "discount", "deleted", [], none⟩] [] "t7").1 ∧
    (⟨"A", "discount", "deleted", [], none⟩ : CodeRow) ∈
      (fastCleanupDeletedCodes [⟨"A", "discount", "deleted", [], none⟩] [] "t7").1 ∧
    ((updateCodesMetadata [⟨"A", "discount", "deleted", [], none⟩]
        [("A", some "77", none)] "t7").1.map (fun x => (x.code, x.status))
      = ([⟨"A", "discount", "deleted", [], none⟩] : Store).map
          (fun x => (x.code, x.status))) ∧
    (⟨"A", "discount", "deleted", [], none⟩ : CodeRow) ∈
      (syncCodesToSupabase [⟨"A", "discount", "deleted", [], none⟩] [] "118714" "t7").1 ∧
    ((getByCode (syncCodesToSupabase [⟨"A", "discount", "deleted", [], none⟩]
        [⟨"A", some 0, some 1, some 0, some 0, none, none⟩] "118714" "t7").1 "A").map
      (·.status)) = some (syncStatus ⟨"A", some 0, some 1, some 0, some 0, none, none⟩) ∧
    (syncStatus ⟨"A", some 0, some 1, some 0, some 0, none, none⟩ = "active" ∨
      syncStatus ⟨"A", some 0, some 1, some 0, some 0, none, none⟩ = "used") :=
  deleted_terminal_amended [⟨"A", "discount", "deleted", [], none⟩] [] []
    [("A", some "77", none)] "118714" "t7"
    ⟨"A", "discount", "deleted", [], none⟩
    ⟨"A", some 0, some 1, some 0, some 0, none, none⟩
    (by simp [CodesNodup]) (by simp) (by rfl) (by simp) (by rfl)

/-- C5: a `renaming` row with a non-empty staged `new_code` (and no
contradictory `action` marker), whose target code is fresh in the store and
different from the old code, is processed successfully into a store with no
row under the old code and exactly one row under the new code — `active` and
stamped `renamed_from` the old code, carrying the metadata forward. -/
theorem rename_round_trip (del : String → Bool)
    (sc : String → Option (Option String × Option String))
    (st : Store) (row : CodeRow) (now nc : String)
    (hstatus : row.status = "renaming")
    (hnc : mget row.metadata "new_code" = some (.s nc)) (hne : ¬ nc = "")
    (hfresh : ∀ x ∈ st, ¬ x.code = nc)
    (hold : ¬ row.code = nc)
    (hact1 : ¬ mget row.metadata "action" = some (.s "create"))
    (hact2 : ¬ mget row.metadata "action" = some (.s "delete"))
    (hact3 : ¬ mget row.metadata "action" = some (.s "update")) :
    (processSingleCodeAction del sc st row now).raised = none ∧
    getByCode (processSingleCodeAction del sc st row now).store row.code = none ∧
    ((processSingleCodeAction del sc st row now).store.filter
        (fun x => decide (x.code = nc)))
      = [{ row with
           code := nc
           status := "active"
           metadata := msets row.metadata
             [("renamed_from", .s row.code), ("renamed_in_fienta_at", .s now),
              ("rename_method", .s "api_request")]
           updatedAt := some now }] ∧
    (∃ rn, getByCode (processSingleCodeAction del sc st row now).store nc = some rn ∧
      rn.status = "active" ∧
      mget rn.metadata "renamed_from" = some (.s row.code)) := by
  have hres : processSingleCodeAction del sc st row now =
      ⟨insertRow (deleteByCode st row.code)
        { row with
          code := nc
          status := "active"
          metadata := msets row.metadata
            [("renamed_from", .s row.code), ("renamed_in_fienta_at", .s now),
             ("rename_method", .s "api_request")]
          updatedAt := some now }, ["rename-code"], [], none⟩ := by
    have h1 : ¬ (row.status = "creating" ∨
        mget row.metadata "action" = some (MVal.s "create")) := by
      rintro (h | h)
      · rw [hstatus] at h
        exact absurd h (by decide)
      · exact hact1 h
    have h2 : ¬ (row.status = "deleting" ∨
        mget row.metadata "action" = some (MVal.s "delete")) := by
      rintro (h | h)
      · rw [hstatus] at h
        exact absurd h (by decide)
      · exact hact2 h
    have h3 : ¬ (row.status = "updating" ∨
        mget row.metadata "action" = some (MVal.s "update")) := by
      rintro (h | h)
      · rw [hstatus] at h
        exact absurd h (by decide)
      · exact hact3 h
    simp only [processSingleCodeAction, handleCodeRename]
    rw [if_neg h1, if_neg h2, if_neg h3, if_pos (Or.inl hstatus), hnc]
    simp [runFientaOperation, truthy, mtruthy, hne, mvalStr]
  rw [hres]
  have hl1 : ∀ a ∈ deleteByCode st row.code, ¬ a.code = row.code := by
    intro a ha
    have := List.mem_filter.mp ha
    simpa using this.2
  refine ⟨rfl, ?_, ?_, ?_⟩
  · show getByCode (deleteByCode st row.code ++ [_]) row.code = none
    rw [getByCode, List.find?_eq_none]
    intro x hx
    rcases List.mem_append.mp hx with hx | hx
    · simpa using hl1 x hx
    · rcases List.mem_singleton.mp hx with rfl
      simpa using fun h => hold h.symm
  · show List.filter _ (deleteByCode st row.code ++ [_]) = _
    rw [List.filter_append]
    have hfl : List.filter (fun x => decide (x.code = nc)) (deleteByCode st row.code) = [] := by
      rw [List.filter_eq_nil_iff]
      intro a ha
      have haSt : a ∈ st := List.mem_of_mem_filter ha
      simpa using hfresh a haSt
    rw [hfl]
    simp
  · refine ⟨{ row with
      code := nc
      status := "active"
      metadata := msets row.metadata
        [("renamed_from", .s row.code), ("renamed_in_fienta_at", .s now),
         ("rename_method", .s "api_request")]
      updatedAt := some now }, ?_, rfl, ?_⟩
    · show getByCode (deleteByCode st row.code ++ [_]) nc = some _
      rw [getByCode, List.find?_append]
      have hfl : List.find? (fun x => decide (x.code = nc)) (deleteByCode st row.code) = none := by
        rw [List.find?_eq_none]
        intro a ha
        have haSt : a ∈ st := List.mem_of_mem_filter ha
        simpa using hfresh a haSt
      rw [hfl]
      simp
    · simp only [msets, List.foldl_cons, List.foldl_nil]
      rw [mget_mset_ne _ _ _ _ (by decide), mget_mset_ne _ _ _ _ (by decide),
        mget_mset_self]

/-- Witness for `rename_round_trip`: renaming concrete code `OLD` to `NEW`. -/
theorem rename_round_trip_witness :
    (processSingleCodeAction (fun _ => true) (fun _ => none)
      [⟨"OLD", "discount", "renaming", [("new_code", .s "NEW")], none⟩]
      ⟨"OLD", "discount", "renaming", [("new_code", .s "NEW")], none⟩ "t8").raised
      = none ∧
    getByCode (processSingleCodeAction (fun _ => true) (fun _ => none)
      [⟨"OLD", "discount", "renaming", [("new_code", .s "NEW")], none⟩]
      ⟨"OLD", "discount", "renaming", [("new_code", .s "NEW")], none⟩ "t8").store
      "OLD" = none ∧
    ((processSingleCodeAction (fun _ => true) (fun _ => none)
      [⟨"OLD", "discount", "renaming", [("new_code", .s "NEW")], none⟩]
      ⟨"OLD", "discount", "renaming", [("new_code", .s "NEW")], none⟩ "t8").store.filter
        (fun x => decide (x.code = "NEW")))
      = [{ (⟨"OLD", "discount", "renaming", [("new_code", .s "NEW")], none⟩ : CodeRow) with
           code := "NEW"
           status := "active"
           metadata := msets [("new_code", .s "NEW")]
             [("renamed_from", .s "OLD"), ("renamed_in_fienta_at", .s "t8"),
              ("rename_method", .s "api_request")]
           updatedAt := some "t8" }] ∧
    (∃ rn, getByCode (processSingleCodeAction (fun _ => true) (fun _ => none)
      [⟨"OLD", "discount", "renaming", [("new_code", .s "NEW")], none⟩]
      ⟨"OLD", "discount", "renaming", [("new_code", .s "NEW")], none⟩ "t8").store
      "NEW" = some rn ∧
      rn.status = "active" ∧
      mget rn.metadata "renamed_from" = some (.s "OLD")) :=
  rename_round_trip (fun _ => true) (fun _ => none)
    [⟨"OLD", "discount", "renaming", [("new_code", .s "NEW")], none⟩]
    ⟨"OLD", "discount", "renaming", [("new_code", .s "NEW")], none⟩ "t8" "NEW"
    (by rfl) (by rfl) (by decide) (by decide) (by decide)
    (by decide) (by decide) (by decide)

/-- C6: a `deleting` row whose metadata lacks `fienta_discount_id`, when both
the DB re-read and the one-off scrape fail to resolve identifiers, is marked
`action_failed` with an `action_error`, its status reverts to the recorded
`previous_status` (defaulting to the dispatched row's status when none was
recorded), a standalone failure log artifact is written, and no `delete-code`
Gateway invocation occurs. -/
theorem unresolved_delete (del : String → Bool)
    (sc : String → Option (Option String × Option String))
    (st : Store) (row : CodeRow) (now : String)
    (hget : getByCode st row.code = some row)
    (hstatus : row.status = "deleting")
    (hdid : mget row.metadata "fienta_discount_id" = none)
    (hscrape : sc row.code = none) :
    "delete-code" ∉ (handleCodeDeletion del sc st row now).calls ∧
    (handleCodeDeletion del sc st row now).raised = none ∧
    ¬ (handleCodeDeletion del sc st row now).logs = [] ∧
    (∃ r1, getByCode (handleCodeDeletion del sc st row now).store row.code
        = some r1 ∧
      r1.status = (match mget row.metadata "previous_status" with
        | some v => mvalStr v
        | none => row.status) ∧
      mget r1.metadata "action_failed" = some (.b true) ∧
      mget r1.metadata "action_error"
        = some (.s "Missing fienta_discount_id; cannot delete in Fienta")) := by
  have hres : handleCodeDeletion del sc st row now =
      ⟨markActionFailed st row.code
        "Missing fienta_discount_id; cannot delete in Fienta"
        (match mget row.metadata "previous_status" with
         | some v => mvalStr v
         | none => row.status) now,
       ["scrape-code-details"], ["fienta_delete_abort_log"], none⟩ := by
    unfold handleCodeDeletion resolveFientaCodeIdentifiers
    simp [hget, hstatus, hdid, hscrape, truthy]
  rw [hres]
  refine ⟨by simp, rfl, by simp, ?_⟩
  unfold markActionFailed
  rw [getByCode_updateByCode_self]
  · rw [hget]
    refine ⟨_, rfl, rfl, ?_, ?_⟩
    · show mget (msets ((Option.map (fun x => x.metadata) (some row)).getD [])
        [("action_failed", .b true),
         ("action_error", .s "Missing fienta_discount_id; cannot delete in Fienta"),
         ("failed_at", .s now)]) "action_failed" = some (.b true)
      simp only [msets, List.foldl_cons, List.foldl_nil]
      rw [mget_mset_ne _ _ _ _ (by decide), mget_mset_ne _ _ _ _ (by decide),
        mget_mset_self]
    · show mget (msets ((Option.map (fun x => x.metadata) (some row)).getD [])
        [("action_failed", .b true),
         ("action_error", .s "Missing fienta_discount_id; cannot delete in Fienta"),
         ("failed_at", .s now)]) "action_error"
        = some (.s "Missing fienta_discount_id; cannot delete in Fienta")
      simp only [msets, List.foldl_cons, List.foldl_nil]
      rw [mget_mset_ne _ _ _ _ (by decide), mget_mset_self]
  · intro x
    rfl

/-- Witness for `unresolved_delete`: concrete code `X2` in `deleting` with
empty metadata and a scrape that resolves nothing. -/
theorem unresolved_delete_witness :
    "delete-code" ∉ (handleCodeDeletion (fun _ => true) (fun _ => none)
      [⟨"X2", "discount", "deleting", [], none⟩]
      ⟨"X2", "discount", "deleting", [], none⟩ "t9").calls ∧
    (handleCodeDeletion (fun _ => true) (fun _ => none)
      [⟨"X2", "discount", "deleting", [], none⟩]
      ⟨"X2", "discount", "deleting", [], none⟩ "t9").raised = none ∧
    ¬ (handleCodeDeletion (fun _ => true) (fun _ => none)
      [⟨"X2", "discount", "deleting", [], none⟩]
      ⟨"X2", "discount", "deleting", [], none⟩ "t9").logs = [] ∧
    (∃ r1, getByCode (handleCodeDeletion (fun _ => true) (fun _ => none)
        [⟨"X2", "discount", "deleting", [], none⟩]
        ⟨"X2", "discount", "deleting", [], none⟩ "t9").store "X2" = some r1 ∧
      r1.status = (match mget ([] : Meta) "previous_status" with
        | some v => mvalStr v
        | none => "deleting") ∧
      mget r1.metadata "action_failed" = some (.b true) ∧
      mget r1.metadata "action_error"
        = some (.s "Missing fienta_discount_id; cannot delete in Fienta")) :=
  unresolved_delete (fun _ => true) (fun _ => none)
    [⟨"X2", "discount", "deleting", [], none⟩]
    ⟨"X2", "discount", "deleting", [], none⟩ "t9"
    (by rfl) (by rfl) (by rfl) (by rfl)

/-- Counterexample to C3 as stated: for concrete code `X` in `deleting` with
both identifiers present, a failed `delete-code` Gateway call leaves the row
at status `deleting` — not `active` — because the handler's revert to
`active` is overwritten when the raised exception is re-marked by the outer
per-row handler with the dispatch-time status. -/
theorem failed_delete_not_active_counterexample :
    ((getByCode (processSingleCodeAction (fun _ => false) (fun _ => none)
        [⟨"X", "discount", "deleting",
          [("fienta_discount_id", .s "123"), ("fienta_edit_url", .s "/e/1")], none⟩]
        ⟨"X", "discount", "deleting",
          [("fienta_discount_id", .s "123"), ("fienta_edit_url", .s "/e/1")], none⟩
        "ta").store "X").map (·.status)) = some "deleting" ∧
    "delete-code" ∈ (processSingleCodeAction (fun _ => false) (fun _ => none)
        [⟨"X", "discount", "deleting",
          [("fienta_discount_id", .s "123"), ("fienta_edit_url", .s "/e/1")], none⟩]
        ⟨"X", "discount", "deleting",
          [("fienta_discount_id", .s "123"), ("fienta_edit_url", .s "/e/1")], none⟩
        "ta").calls ∧
    ¬ ((getByCode (processSingleCodeAction (fun _ => false) (fun _ => none)
        [⟨"X", "discount", "deleting",
          [("fienta_discount_id", .s "123"), ("fienta_edit_url", .s "/e/1")], none⟩]
        ⟨"X", "discount", "deleting",
          [("fienta_discount_id", .s "123"), ("fienta_edit_url", .s "/e/1")], none⟩
        "ta").store "X").map (·.status)) = some "active" := by
  refine ⟨rfl, by decide, by decide⟩

/-- C3 (amended): when a `deleting` row's `delete-code` Gateway call fails,
the handler first marks the action failed with the hardcoded revert target
`active`, then raises; the outer per-row handler re-marks the failure with the
dispatch-time status, so the row ends at status `deleting` with
`action_failed = true` and the error recorded. The `update-code` and
`create-code` Gateway operations cannot fail (they succeed unconditionally),
so their failure-revert branches are unreachable. -/
theorem failed_delete_reverts_amended (del : String → Bool)
    (sc : String → Option (Option String × Option String))
    (st : Store) (row : CodeRow) (now d u : String)
    (hget : getByCode st row.code = some row)
    (hstatus : row.status = "deleting")
    (hdid : mget row.metadata "fienta_discount_id" = some (.s d)) (hd : ¬ d = "")
    (heurl : mget row.metadata "fienta_edit_url" = some (.s u)) (hu : ¬ u = "")
    (hfail : del row.code = false)
    (hact1 : ¬ mget row.metadata "action" = some (.s "create")) :
    (runFientaOperation del "update-code" row.code none).success = true ∧
    (runFientaOperation del "create-code" row.code none).success = true ∧
    (processSingleCodeAction del sc st row now).raised
      = some "Failed to delete code from Fienta" ∧
    (∃ r1, getByCode (processSingleCodeAction del sc st row now).store row.code
        = some r1 ∧
      r1.status = "deleting" ∧
      ¬ r1.status = "active" ∧
      mget r1.metadata "action_failed" = some (.b true) ∧
      mget r1.metadata "action_error"
        = some (.s "Failed to delete code from Fienta")) := by
  have h1 : ¬ (row.status = "creating" ∨
      mget row.metadata "action" = some (MVal.s "create")) := by
    rintro (h | h)
    · rw [hstatus] at h
      exact absurd h (by decide)
    · exact hact1 h
  have hdisp : processSingleCodeAction del sc st row now =
      { store := markActionFailed
          (markActionFailed st row.code
            "Playwright deletion did not complete" "active" now)
          row.code "Failed to delete code from Fienta" row.status now
        calls := ["delete-code"]
        logs := ["fienta_delete_output_log"]
        raised := some "Failed to delete code from Fienta" } := by
    simp only [processSingleCodeAction]
    rw [if_neg h1, if_pos (Or.inl hstatus)]
    unfold handleCodeDeletion
    simp [hget, hstatus, hdid, heurl, hd, hu, truthy, mtruthy,
      runFientaOperation, deleteCodeInFienta, hfail]
  refine ⟨by simp [runFientaOperation], by simp [runFientaOperation], ?_, ?_⟩
  · rw [hdisp]
  · rw [hdisp]
    unfold markActionFailed
    rw [getByCode_updateByCode_self]
    · rw [getByCode_updateByCode_self]
      · rw [hget]
        refine ⟨_, rfl, hstatus, by rw [hstatus]; decide, ?_, ?_⟩
        · show mget (msets _
            [("action_failed", .b true),
             ("action_error", .s "Failed to delete code from Fienta"),
             ("failed_at", .s now)]) "action_failed" = some (.b true)
          simp only [msets, List.foldl_cons, List.foldl_nil]
          rw [mget_mset_ne _ _ _ _ (by decide), mget_mset_ne _ _ _ _ (by decide),
            mget_mset_self]
        · show mget (msets _
            [("action_failed", .b true),
             ("action_error", .s "Failed to delete code from Fienta"),
             ("failed_at", .s now)]) "action_error"
            = some (.s "Failed to delete code from Fienta")
          simp only [msets, List.foldl_cons, List.foldl_nil]
          rw [mget_mset_ne _ _ _ _ (by decide), mget_mset_self]
      · intro x
        rfl
    · intro x
      rfl

/-- Witness for `failed_delete_reverts_amended` at concrete code `XW`. -/
theorem failed_delete_reverts_amended_witness :
    (runFientaOperation (fun _ => false) "update-code" "XW" none).success = true ∧
    (runFientaOperation (fun _ => false) "create-code" "XW" none).success = true ∧
    (processSingleCodeAction (fun _ => false) (fun _ => none)
      [⟨"XW", "discount", "deleting",
        [("fienta_discount_id", .s "9"), ("fienta_edit_url", .s "/e/9")], none⟩]
      ⟨"XW", "discount", "deleting",
        [("fienta_discount_id", .s "9"), ("fienta_edit_url", .s "/e/9")], none⟩
      "tb").raised = some "Failed to delete code from Fienta" ∧
    (∃ r1, getByCode (processSingleCodeAction (fun _ => false) (fun _ => none)
        [⟨"XW", "discount", "deleting",
          [("fienta_discount_id", .s "9"), ("fienta_edit_url", .s "/e/9")], none⟩]
        ⟨"XW", "discount", "deleting",
          [("fienta_discount_id", .s "9"), ("fienta_edit_url", .s "/e/9")], none⟩
        "tb").store "XW" = some r1 ∧
      r1.status = "deleting" ∧
      ¬ r1.status = "active" ∧
      mget r1.metadata "action_failed" = some (.b true) ∧
      mget r1.metadata "action_error"
        = some (.s "Failed to delete code from Fienta")) :=
  failed_delete_reverts_amended (fun _ => false) (fun _ => none)
    [⟨"XW", "discount", "deleting",
      [("fienta_discount_id", .s "9"), ("fienta_edit_url", .s "/e/9")], none⟩]
    ⟨"XW", "discount", "deleting",
      [("fienta_discount_id", .s "9"), ("fienta_edit_url", .s "/e/9")], none⟩
    "tb" "9" "/e/9"
    (by rfl) (by rfl) (by rfl) (by decide) (by rfl) (by decide) (by rfl) (by decide)

/-- Counterexample to C7 as stated: the codes-category query is the only
unguarded one — when it fails, the pass returns a `success = false` envelope
and the pending order row is left unprocessed (its `action` marker intact),
so a codes query failure does not degrade to a zero-count no-op with the rest
of the pass still running. -/
theorem codes_query_failure_counterexample :
    (processPendingActions (fun _ => true) (fun _ => none)
      ⟨true, false, false, false⟩
      ⟨[], [⟨"ORD1", "pending",
        [("action", .s "update_status"), ("new_status", .s "completed")]⟩], [], []⟩
      "tc").success = false ∧
    (processPendingActions (fun _ => true) (fun _ => none)
      ⟨true, false, false, false⟩
      ⟨[], [⟨"ORD1", "pending",
        [("action", .s "update_status"), ("new_status", .s "completed")]⟩], [], []⟩
      "tc").counts = none ∧
    (processPendingActions (fun _ => true) (fun _ => none)
      ⟨true, false, false, false⟩
      ⟨[], [⟨"ORD1", "pending",
        [("action", .s "update_status"), ("new_status", .s "completed")]⟩], [], []⟩
      "tc").db.orders
      = [⟨"ORD1", "pending",
        [("action", .s "update_status"), ("new_status", .s "completed")]⟩] :=
  ⟨rfl, rfl, rfl⟩

/-- C7 (amended): `process_pending_actions` always returns an envelope — its
`success` flag is false exactly when the unguarded codes query fails, in which
case nothing is processed and no counts are produced; a failure of any of the
three guarded queries (orders, links, organizations) degrades only that
category to a zero-count no-op while every other category still runs; and a
per-row exception (a `renaming` row with no staged `new_code`) is caught,
leaves the row uncounted, and processing continues to the next row. -/
theorem pass_containment_amended (del : String → Bool)
    (sc : String → Option (Option String × Option String)) (now : String) :
    (∀ (qf : QFail) (db : DB),
      (processPendingActions del sc qf db now).success = !qf.codesQ) ∧
    (∀ (qf : QFail) (db : DB), qf.codesQ = true →
      (processPendingActions del sc qf db now).db = db ∧
      (processPendingActions del sc qf db now).counts = none) ∧
    (∀ (qf : QFail) (db : DB), qf.codesQ = false →
      ∃ pc, (processPendingActions del sc qf db now).counts = some pc ∧
        pc.codes = (processCodeActions del sc db.codes now).2 ∧
        pc.orders = (if qf.ordersQ then 0 else
          (processOrderActions false db.orders now).2) ∧
        (qf.ordersQ = true →
          (processPendingActions del sc qf db now).db.orders = db.orders) ∧
        pc.links = (if qf.linksQ then 0 else
          (processLinkActions false db.links now).2) ∧
        (qf.linksQ = true →
          (processPendingActions del sc qf db now).db.links = db.links) ∧
        pc.orgs = (if qf.orgsQ then 0 else
          (processOrganizationActions false db.orgs now).2) ∧
        (qf.orgsQ = true →
          (processPendingActions del sc qf db now).db.orgs = db.orgs)) ∧
    (∀ (c1 c2 : String) (m1 m2 : Meta) (u1 u2 : Option String), ¬ c1 = c2 →
      mget m1 "action" = none → mget m1 "new_code" = none →
      (processCodeActions del sc
        [⟨c1, "discount", "renaming", m1, u1⟩,
         ⟨c2, "discount", "creating", m2, u2⟩] now).2 = 1 ∧
      ((getByCode (processCodeActions del sc
        [⟨c1, "discount", "renaming", m1, u1⟩,
         ⟨c2, "discount", "creating", m2, u2⟩] now).1 c2).map (·.status))
        = some "active") := by
  refine ⟨?_, ?_, ?_, ?_⟩
  · intro qf db
    unfold processPendingActions
    rcases hq : qf.codesQ
    · simp [hq]
    · simp [hq]
  · intro qf db hq
    unfold processPendingActions
    rw [if_pos hq]
    exact ⟨rfl, rfl⟩
  · intro qf db hq
    unfold processPendingActions
    rw [if_neg (by simp [hq])]
    refine ⟨_, rfl, rfl, ?_, ?_, ?_, ?_, ?_, ?_⟩
    · unfold processOrderActions
      rcases ho : qf.ordersQ <;> simp
    · intro ho
      simp [processOrderActions, ho]
    · unfold processLinkActions
      rcases hl : qf.linksQ <;> simp
    · intro hl
      simp [processLinkActions, hl]
    · unfold processOrganizationActions
      rcases hg : qf.orgsQ <;> simp
    · intro hg
      simp [processOrganizationActions, hg]
  · intro c1 c2 m1 m2 u1 u2 hne hma hmn
    have hstep1 : processSingleCodeAction del sc
        [⟨c1, "discount", "renaming", m1, u1⟩,
         ⟨c2, "discount", "creating", m2, u2⟩]
        ⟨c1, "discount", "renaming", m1, u1⟩ now =
        { store := markActionFailed
            [⟨c1, "discount", "renaming", m1, u1⟩,
             ⟨c2, "discount", "creating", m2, u2⟩] c1
            "No new_code specified in metadata for rename operation" "renaming" now
          calls := []
          logs := []
          raised := some "No new_code specified in metadata for rename operation" } := by
      unfold processSingleCodeAction handleCodeRename
      simp [hma, hmn, truthy]
    have hd2 : ¬ c2 = c1 := fun h => hne h.symm
    have hget2 : getByCode (markActionFailed
        [⟨c1, "discount", "renaming", m1, u1⟩,
         ⟨c2, "discount", "creating", m2, u2⟩] c1
        "No new_code specified in metadata for rename operation" "renaming" now) c2
        = some ⟨c2, "discount", "creating", m2, u2⟩ := by
      simp only [markActionFailed]
      rw [getByCode_updateByCode_ne]
      · unfold getByCode
        rw [List.find?_cons_of_neg _ (by simp [hne]),
          List.find?_cons_of_pos _ (by simp)]
      · intro x
        rfl
      · exact hd2
    have hsnap : ([⟨c1, "discount", "renaming", m1, u1⟩,
        ⟨c2, "discount", "creating", m2, u2⟩] : Store).filter
        (fun r => decide (r.status ∈ pendingStatuses))
        = [⟨c1, "discount", "renaming", m1, u1⟩,
           ⟨c2, "discount", "creating", m2, u2⟩] := by
      simp [pendingStatuses]
    unfold processCodeActions
    rw [hsnap, List.foldl_cons, List.foldl_cons, List.foldl_nil]
    unfold codeActionStep
    simp only [hstep1]
    constructor
    · unfold processSingleCodeAction handleCodeCreation
      simp [runFientaOperation]
    · unfold processSingleCodeAction handleCodeCreation
      simp [runFientaOperation]
      rw [getByCode_updateByCode_self]
      · rw [hget2]
        exact ⟨_, rfl, rfl⟩
      · intro x
        rfl

/-- Witness for `pass_containment_amended`: a concrete raising `renaming` row
does not stop the pass — the following `creating` row is still processed. -/
theorem pass_containment_amended_witness :
    (processCodeActions (fun _ => true) (fun _ => none)
      [⟨"R1", "discount", "renaming", [], none⟩,
       ⟨"C1", "discount", "creating", [], none⟩] "td").2 = 1 ∧
    ((getByCode (processCodeActions (fun _ => true) (fun _ => none)
      [⟨"R1", "discount", "renaming", [], none⟩,
       ⟨"C1", "discount", "creating", [], none⟩] "td").1 "C1").map (·.status))
      = some "active" :=
  (pass_containment_amended (fun _ => true) (fun _ => none) "td").2.2.2
    "R1" "C1" [] [] none none (by decide) (by rfl) (by rfl)

/-- Popping a key removes it. -/
theorem mget_merase_self (m : Meta) (k : String) : mget (merase m k) k = none := by
  have h : (m.filter (fun p => ¬ p.1 = k)).find? (fun p => p.1 = k) = none := by
    rw [List.find?_eq_none]
    intro x hx
    have hm := List.mem_filter.mp hx
    simpa using hm.2
  simp [mget, merase, h]

/-- Deleting rows of a different code does not change a lookup. -/
theorem getByCode_deleteByCode_ne (st : Store) (c j : String) (h : ¬ j = c) :
    getByCode (deleteByCode st c) j = getByCode st j := by
  unfold getByCode deleteByCode
  induction st with
  | nil => rfl
  | cons r t ih =>
    by_cases hc : r.code = c
    · have hrj : ¬ r.code = j := fun hj => h (hj.symm.trans hc)
      rw [List.filter_cons_of_neg (by simp [hc]), ih,
        List.find?_cons_of_neg _ (by simp [hrj])]
    · by_cases hj : r.code = j
      · rw [List.filter_cons_of_pos (by simp [hc]),
          List.find?_cons_of_pos _ (by simp [hj]),
          List.find?_cons_of_pos _ (by simp [hj])]
      · rw [List.filter_cons_of_pos (by simp [hc]),
          List.find?_cons_of_neg _ (by simp [hj]), ih,
          List.find?_cons_of_neg _ (by simp [hj])]

/-- A successful lookup in the left part survives an append. -/
theorem getByCode_append_of_some {st1 st2 : Store} {c : String} {r : CodeRow}
    (h : getByCode st1 c = some r) : getByCode (st1 ++ st2) c = some r := by
  unfold getByCode at h ⊢
  rw [List.find?_append, h]
  rfl

/-- With one staged field present, the update handler's parameter list is
nonempty. -/
theorem updateParams_ne_nil (m : Meta) (f0 : String) (hf : f0 ∈ updatableFields)
    (hs : (mget m ("new_" ++ f0)).isSome) :
    ¬ (updatableFields.filterMap
      (fun f => (mget m ("new_" ++ f)).map (fun v => (f, v)))) = [] := by
  intro hnil
  rcases Option.isSome_iff_exists.mp hs with ⟨v, hv⟩
  have hmem : (f0, v) ∈ updatableFields.filterMap
      (fun f => (mget m ("new_" ++ f)).map (fun v => (f, v))) :=
    List.mem_filterMap.mpr ⟨f0, hf, by rw [hv]; rfl⟩
  rw [hnil] at hmem
  cases hmem

/-- A `creating` row (no contradictory `action` marker) is processed without
exception into a patch of its own code that sets status `active`. -/
theorem psca_creating_shape (del : String → Bool)
    (sc : String → Option (Option String × Option String))
    (st : Store) (row : CodeRow) (now : String)
    (hst : row.status = "creating") (_hma : mget row.metadata "action" = none) :
    (processSingleCodeAction del sc st row now).raised = none ∧
    ∃ f, (processSingleCodeAction del sc st row now).store
        = updateByCode st row.code f ∧
      ∀ x, (f x).code = x.code ∧ (f x).status = "active" := by
  have hstep : processSingleCodeAction del sc st row now =
      ⟨updateByCode st row.code (fun r =>
        { r with
          status := "active"
          metadata := msets (msets row.metadata
              [("created_in_fienta_at", .s now), ("creation_method", .s "api_request")])
            (([("discount_percent", (mget row.metadata "discount_percent").getD (.n 10)),
               ("discount_amount", (mget row.metadata "discount_amount").getD .null),
               ("max_uses", (mget row.metadata "max_uses").getD (.n 1)),
               ("expires_at", (mget row.metadata "expires_at").getD .null),
               ("description", (mget row.metadata "description").getD
                 (.s ("Auto-created code " ++ row.code)))] : List (String × MVal)).filter
              (fun p => ¬ p.2 = .null))
          updatedAt := some now }), ["create-code"], [], none⟩ := by
    simp only [processSingleCodeAction, handleCodeCreation]
    rw [if_pos (Or.inl hst)]
    simp [runFientaOperation]
  rw [hstep]
  exact ⟨rfl, _, rfl, fun x => ⟨rfl, rfl⟩⟩

/-- An `updating` row (no contradictory `action` marker) with at least one
staged field is processed without exception into a patch of its own code that
sets status `active`. -/
theorem psca_updating_shape (del : String → Bool)
    (sc : String → Option (Option String × Option String))
    (st : Store) (row : CodeRow) (now : String)
    (hst : row.status = "updating") (hma : mget row.metadata "action" = none)
    (f0 : String) (hf : f0 ∈ updatableFields)
    (hs : (mget row.metadata ("new_" ++ f0)).isSome) :
    (processSingleCodeAction del sc st row now).raised = none ∧
    ∃ f, (processSingleCodeAction del sc st row now).store
        = updateByCode st row.code f ∧
      ∀ x, (f x).code = x.code ∧ (f x).status = "active" := by
  have hne := updateParams_ne_nil row.metadata f0 hf hs
  have hstep : processSingleCodeAction del sc st row now =
      ⟨updateByCode st row.code (fun r =>
        { r with
          status := "active"
          metadata := msets
            ((updatableFields.filterMap
              (fun f => (mget row.metadata ("new_" ++ f)).map (fun v => (f, v)))).foldl
              (fun acc p => merase (mset acc p.1 p.2) ("new_" ++ p.1)) row.metadata)
            [("updated_in_fienta_at", .s now), ("update_method", .s "api_request")]
          updatedAt := some now }), ["update-code"], [], none⟩ := by
    simp only [processSingleCodeAction, handleCodeUpdate]
    rw [if_neg (by
      rintro (h | h)
      · rw [hst] at h
        exact absurd h (by decide)
      · simp [hma] at h)]
    rw [if_neg (by
      rintro (h | h)
      · rw [hst] at h
        exact absurd h (by decide)
      · simp [hma] at h)]
    rw [if_pos (Or.inl hst)]
    rw [if_neg hne]
    simp [runFientaOperation]
  rw [hstep]
  exact ⟨rfl, _, rfl, fun x => ⟨rfl, rfl⟩⟩

/-- A `deleting` row (no contradictory `action` marker) whose store re-read
still sees it `deleting`, with both identifiers present and a successful
Gateway deletion, is processed without exception into a patch of its own code
that sets status `deleted`. -/
theorem psca_deleting_shape (del : String → Bool)
    (sc : String → Option (Option String × Option String))
    (st : Store) (row : CodeRow) (now d u : String)
    (hst : row.status = "deleting") (hma : mget row.metadata "action" = none)
    (hget : getByCode st row.code = some row)
    (hdid : mget row.metadata "fienta_discount_id" = some (.s d)) (hd : ¬ d = "")
    (heurl : mget row.metadata "fienta_edit_url" = some (.s u)) (hu : ¬ u = "")
    (hok : del row.code = true) :
    (processSingleCodeAction del sc st row now).raised = none ∧
    ∃ f, (processSingleCodeAction del sc st row now).store
        = updateByCode st row.code f ∧
      ∀ x, (f x).code = x.code ∧ (f x).status = "deleted" := by
  have hstep : processSingleCodeAction del sc st row now =
      ⟨updateByCode st row.code (fun r =>
        { r with
          status := "deleted"
          metadata := msets row.metadata
            [("deleted_in_fienta_at", .s now),
             ("deletion_completed_by", .s "action_processor"),
             ("deletion_source", (mget row.metadata "deletion_source").getD (.s "unknown")),
             ("deletion_method", (mget row.metadata "deletion_method").getD (.s "unknown")),
             ("coordination_completed", .s now)]
          updatedAt := some now }), ["delete-code"], ["fienta_delete_output_log"],
        none⟩ := by
    simp only [processSingleCodeAction]
    rw [if_neg (by
      rintro (h | h)
      · rw [hst] at h
        exact absurd h (by decide)
      · simp [hma] at h)]
    rw [if_pos (Or.inl hst)]
    unfold handleCodeDeletion
    simp [hget, hst, hdid, heurl, hd, hu, truthy, mtruthy,
      runFientaOperation, deleteCodeInFienta, hok]
  rw [hstep]
  exact ⟨rfl, _, rfl, fun x => ⟨rfl, rfl⟩⟩

/-- A `renaming` row (no contradictory `action` marker) with a non-empty
staged `new_code` is processed without exception into deletion of its old
code plus insertion of an `active` row. -/
theorem psca_renaming_shape (del : String → Bool)
    (sc : String → Option (Option String × Option String))
    (st : Store) (row : CodeRow) (now : String)
    (hst : row.status = "renaming") (hma : mget row.metadata "action" = none)
    (nc : String) (hnc : mget row.metadata "new_code" = some (.s nc))
    (hne : ¬ nc = "") :
    (processSingleCodeAction del sc st row now).raised = none ∧
    ∃ newRec, newRec.status = "active" ∧
      (processSingleCodeAction del sc st row now).store
        = insertRow (deleteByCode st row.code) newRec := by
  have hstep : processSingleCodeAction del sc st row now =
      ⟨insertRow (deleteByCode st row.code)
        { row with
          code := nc
          status := "active"
          metadata := msets row.metadata
            [("renamed_from", .s row.code), ("renamed_in_fienta_at", .s now),
             ("rename_method", .s "api_request")]
          updatedAt := some now }, ["rename-code"], [], none⟩ := by
    simp only [processSingleCodeAction, handleCodeRename]
    rw [if_neg (by
      rintro (h | h)
      · rw [hst] at h
        exact absurd h (by decide)
      · simp [hma] at h)]
    rw [if_neg (by
      rintro (h | h)
      · rw [hst] at h
        exact absurd h (by decide)
      · simp [hma] at h)]
    rw [if_neg (by
      rintro (h | h)
      · rw [hst] at h
        exact absurd h (by decide)
      · simp [hma] at h)]
    rw [if_pos (Or.inl hst), hnc]
    simp [runFientaOperation, truthy, mtruthy, hne, mvalStr]
  rw [hstep]
  exact ⟨rfl, _, rfl, rfl⟩

/-- After one code-action pass over a store with distinct codes whose pending
rows all satisfy their success conditions, no row remains in a pending-intent
status. -/
theorem processCodeActions_clears_pending (del : String → Bool)
    (sc : String → Option (Option String × Option String))
    (st : Store) (now : String)
    (hn : CodesNodup st)
    (hready : ∀ r ∈ st.filter (fun r => decide (r.status ∈ pendingStatuses)),
      CodeRowReady del r) :
    ∀ r ∈ (processCodeActions del sc st now).1, ¬ r.status ∈ pendingStatuses := by
  have hfin := foldl_inv_rem
    (fun (b : Store × Nat) (rem : List CodeRow) =>
      ((rem.map (·.code)).Nodup) ∧
      (∀ e ∈ rem, CodeRowReady del e) ∧
      (∀ e ∈ rem, e.status ∈ pendingStatuses) ∧
      (∀ e ∈ rem, getByCode b.1 e.code = some e) ∧
      (∀ r ∈ b.1, r.status ∈ pendingStatuses → ∃ e ∈ rem, e.code = r.code))
    (codeActionStep del sc now) ?hstep
    (st.filter (fun r => decide (r.status ∈ pendingStatuses))) (st, 0) ?hinit
  case hinit =>
    refine ⟨filter_codes_nodup st hn _, hready, ?_, ?_, ?_⟩
    · intro e he
      have := List.mem_filter.mp he
      simpa using this.2
    · intro e he
      exact getByCode_eq_of_nodup hn (List.mem_of_mem_filter he)
    · intro r hr hp
      exact ⟨r, List.mem_filter.mpr ⟨hr, by simpa using hp⟩, rfl⟩
  case hstep =>
    rintro b e0 rem' ⟨hnod, hready', hpend', hget', hcover⟩
    have hnod2 : (∀ x ∈ rem', ¬ x.code = e0.code) ∧
        (rem'.map (·.code)).Nodup := by
      simpa using hnod
    have hnodt := hnod2.2
    have hcode_ne : ∀ e ∈ rem', ¬ e.code = e0.code := hnod2.1
    have hr0 := hready' e0 (List.mem_cons_self _ _)
    have hp0 := hpend' e0 (List.mem_cons_self _ _)
    have hg0 := hget' e0 (List.mem_cons_self _ _)
    simp only [pendingStatuses, List.mem_cons, List.not_mem_nil, or_false] at hp0
    have hupd : ∀ (f : CodeRow → CodeRow) (stNew : String),
        (∀ x, (f x).code = x.code ∧ (f x).status = stNew) →
        ¬ stNew ∈ pendingStatuses →
        ((rem'.map (·.code)).Nodup) ∧
        (∀ e ∈ rem', CodeRowReady del e) ∧
        (∀ e ∈ rem', e.status ∈ pendingStatuses) ∧
        (∀ e ∈ rem', getByCode (updateByCode b.1 e0.code f) e.code = some e) ∧
        (∀ r ∈ updateByCode b.1 e0.code f, r.status ∈ pendingStatuses →
          ∃ e ∈ rem', e.code = r.code) := by
      intro f stNew hf hstp
      refine ⟨hnodt,
        fun e he => hready' e (List.mem_cons_of_mem _ he),
        fun e he => hpend' e (List.mem_cons_of_mem _ he), ?_, ?_⟩
      · intro e he
        rw [getByCode_updateByCode_ne _ _ _ f (fun x => (hf x).1) (hcode_ne e he)]
        exact hget' e (List.mem_cons_of_mem _ he)
      · intro r hr hp
        rcases List.mem_map.mp hr with ⟨r0, hr0mem, hr0eq⟩
        by_cases hc : r0.code = e0.code
        · rw [if_pos hc] at hr0eq
          rw [← hr0eq] at hp
          exact absurd hp (by rw [(hf r0).2]; exact hstp)
        · rw [if_neg hc] at hr0eq
          subst hr0eq
          rcases hcover r0 hr0mem hp with ⟨e, he, hee⟩
          rcases List.mem_cons.mp he with rfl | he1
          · exact absurd hee.symm hc
          · exact ⟨e, he1, hee⟩
    rcases hp0 with hst | hst | hst | hst
    · rcases psca_creating_shape del sc b.1 e0 now hst hr0.1
        with ⟨hraised, f, hstore, hf⟩
      have hsteq : (codeActionStep del sc now b e0).1 = updateByCode b.1 e0.code f := by
        show (processSingleCodeAction del sc b.1 e0 now).store = _
        exact hstore
      rw [hsteq]
      exact hupd f "active" hf (by decide)
    · rcases hr0.2.2.2 hst with ⟨⟨d, hdid, hd⟩, ⟨u, heurl, hu⟩, hok⟩
      rcases psca_deleting_shape del sc b.1 e0 now d u hst hr0.1 hg0 hdid hd heurl hu hok
        with ⟨hraised, f, hstore, hf⟩
      have hsteq : (codeActionStep del sc now b e0).1 = updateByCode b.1 e0.code f := by
        show (processSingleCodeAction del sc b.1 e0 now).store = _
        exact hstore
      rw [hsteq]
      exact hupd f "deleted" hf (by decide)
    · rcases hr0.2.1 hst with ⟨f0, hf0, hs⟩
      rcases psca_updating_shape del sc b.1 e0 now hst hr0.1 f0 hf0 hs
        with ⟨hraised, f, hstore, hf⟩
      have hsteq : (codeActionStep del sc now b e0).1 = updateByCode b.1 e0.code f := by
        show (processSingleCodeAction del sc b.1 e0 now).store = _
        exact hstore
      rw [hsteq]
      exact hupd f "active" hf (by decide)
    · rcases hr0.2.2.1 hst with ⟨nc, hnc, hnce⟩
      rcases psca_renaming_shape del sc b.1 e0 now hst hr0.1 nc hnc hnce
        with ⟨hraised, newRec, hnewst, hstore⟩
      have hsteq : (codeActionStep del sc now b e0).1
          = insertRow (deleteByCode b.1 e0.code) newRec := by
        show (processSingleCodeAction del sc b.1 e0 now).store = _
        exact hstore
      rw [hsteq]
      refine ⟨hnodt,
        fun e he => hready' e (List.mem_cons_of_mem _ he),
        fun e he => hpend' e (List.mem_cons_of_mem _ he), ?_, ?_⟩
      · intro e he
        apply getByCode_append_of_some
        rw [getByCode_deleteByCode_ne _ _ _ (hcode_ne e he)]
        exact hget' e (List.mem_cons_of_mem _ he)
      · intro r hr hp
        rcases List.mem_append.mp hr with hr1 | hr1
        · have hrf := List.mem_filter.mp hr1
          have hrne : ¬ r.code = e0.code := by simpa using hrf.2
          rcases hcover r hrf.1 hp with ⟨e, he, hee⟩
          rcases List.mem_cons.mp he with rfl | he1
          · exact absurd hee.symm hrne
          · exact ⟨e, he1, hee⟩
        · rcases List.mem_singleton.mp hr1 with rfl
          rw [hnewst] at hp
          exact absurd hp (by decide)
  intro r hr hp
  rcases hfin.2.2.2.2 r hr hp with ⟨e, he, _⟩
  cases he

/-- The metadata written to an order/link/organization row when its action is
consumed no longer contains the action key that selected it. -/
theorem popped_action_not_contains (m : Meta) (k v stampKey now : String)
    (hk : ¬ k = stampKey) :
    ¬ metaContains (mset (merase m k) stampKey (.s now)) k v := by
  unfold metaContains
  rw [mget_mset_ne _ _ _ _ hk, mget_merase_self]
  intro h
  cases h

/-- After one order-action pass in which every selected row has a truthy
`new_status`, no order row still contains the `update_status` action. -/
theorem processOrderActions_clears (os : List OrderRow) (now : String)
    (hready : ∀ o ∈ os.filter
      (fun r => decide (metaContains r.metadata "action" "update_status")),
      truthy (mget o.metadata "new_status") = true) :
    ∀ r ∈ (processOrderActions false os now).1,
      ¬ metaContains r.metadata "action" "update_status" := by
  have hfin := foldl_inv_rem
    (fun (b : List OrderRow × Nat) (rem : List OrderRow) =>
      (∀ e ∈ rem, metaContains e.metadata "action" "update_status" ∧
        truthy (mget e.metadata "new_status") = true) ∧
      (∀ r ∈ b.1, metaContains r.metadata "action" "update_status" →
        ∃ e ∈ rem, e.externalId = r.externalId))
    (orderActionStep now) ?hstep
    (os.filter (fun r => decide (metaContains r.metadata "action" "update_status")))
    (os, 0) ?hinit
  case hinit =>
    constructor
    · intro e he
      have hef := List.mem_filter.mp he
      exact ⟨by simpa using hef.2, hready e he⟩
    · intro r hr hc
      exact ⟨r, List.mem_filter.mpr ⟨hr, by simpa using hc⟩, rfl⟩
  case hstep =>
    rintro b e0 rem' ⟨hsel, hcover⟩
    have he0 := hsel e0 (List.mem_cons_self _ _)
    have hstep1 : (orderActionStep now b e0).1 = b.1.map (fun r =>
        if r.externalId = e0.externalId then
          { r with
            status := mvalStr ((mget e0.metadata "new_status").getD .null)
            metadata := mset (merase e0.metadata "action") "status_updated_at" (.s now) }
        else r) := by
      show processOrderAction b.1 e0 now = _
      have ha : mget e0.metadata "action" = some (MVal.s "update_status") := he0.1
      simp only [processOrderAction]
      rw [if_pos ha, if_pos he0.2]
    constructor
    · intro e he
      exact hsel e (List.mem_cons_of_mem _ he)
    · rw [hstep1]
      intro r hr hc
      rcases List.mem_map.mp hr with ⟨r0, hr0mem, hr0eq⟩
      by_cases hid : r0.externalId = e0.externalId
      · rw [if_pos hid] at hr0eq
        rw [← hr0eq] at hc
        exact absurd hc (popped_action_not_contains _ _ _ _ _ (by decide))
      · rw [if_neg hid] at hr0eq
        subst hr0eq
        rcases hcover r0 hr0mem hc with ⟨e, he, hee⟩
        rcases List.mem_cons.mp he with rfl | he1
        · exact absurd hee.symm hid
        · exact ⟨e, he1, hee⟩
  intro r hr hc
  rcases hfin.2 r hr hc with ⟨e, he, _⟩
  cases he

/-- After one link-action pass, no link row still contains the
`create_short_url` action (link processing is unconditional). -/
theorem processLinkActions_clears (ls : List LinkRow) (now : String) :
    ∀ r ∈ (processLinkActions false ls now).1,
      ¬ metaContains r.metadata "action" "create_short_url" := by
  have hfin := foldl_inv_rem
    (fun (b : List LinkRow × Nat) (rem : List LinkRow) =>
      (∀ e ∈ rem, metaContains e.metadata "action" "create_short_url") ∧
      (∀ r ∈ b.1, metaContains r.metadata "action" "create_short_url" →
        ∃ e ∈ rem, e.id = r.id))
    (linkActionStep now) ?hstep
    (ls.filter (fun r => decide (metaContains r.metadata "action" "create_short_url")))
    (ls, 0) ?hinit
  case hinit =>
    constructor
    · intro e he
      have hef := List.mem_filter.mp he
      simpa using hef.2
    · intro r hr hc
      exact ⟨r, List.mem_filter.mpr ⟨hr, by simpa using hc⟩, rfl⟩
  case hstep =>
    rintro b e0 rem' ⟨hsel, hcover⟩
    have he0 := hsel e0 (List.mem_cons_self _ _)
    have hstep1 : (linkActionStep now b e0).1 = b.1.map (fun r =>
        if r.id = e0.id then
          { r with
            shortUrl := some ("https://short.ly/" ++ e0.id.take 8)
            metadata := mset (merase e0.metadata "action") "short_url_created_at" (.s now) }
        else r) := by
      show processLinkAction b.1 e0 now = _
      have ha : mget e0.metadata "action" = some (MVal.s "create_short_url") := he0
      simp only [processLinkAction]
      rw [if_pos ha]
    constructor
    · intro e he
      exact hsel e (List.mem_cons_of_mem _ he)
    · rw [hstep1]
      intro r hr hc
      rcases List.mem_map.mp hr with ⟨r0, hr0mem, hr0eq⟩
      by_cases hid : r0.id = e0.id
      · rw [if_pos hid] at hr0eq
        rw [← hr0eq] at hc
        exact absurd hc (popped_action_not_contains _ _ _ _ _ (by decide))
      · rw [if_neg hid] at hr0eq
        subst hr0eq
        rcases hcover r0 hr0mem hc with ⟨e, he, hee⟩
        rcases List.mem_cons.mp he with rfl | he1
        · exact absurd hee.symm hid
        · exact ⟨e, he1, hee⟩
  intro r hr hc
  rcases hfin.2 r hr hc with ⟨e, he, _⟩
  cases he

/-- After one organization-action pass, no organization row still contains
the `sync_to_external` action. -/
theorem processOrganizationActions_clears (gs : List OrgRow) (now : String) :
    ∀ r ∈ (processOrganizationActions false gs now).1,
      ¬ metaContains r.metadata "action" "sync_to_external" := by
  have hfin := foldl_inv_rem
    (fun (b : List OrgRow × Nat) (rem : List OrgRow) =>
      (∀ e ∈ rem, metaContains e.metadata "action" "sync_to_external") ∧
      (∀ r ∈ b.1, metaContains r.metadata "action" "sync_to_external" →
        ∃ e ∈ rem, e.id = r.id))
    (orgActionStep now) ?hstep
    (gs.filter (fun r => decide (metaContains r.metadata "action" "sync_to_external")))
    (gs, 0) ?hinit
  case hinit =>
    constructor
    · intro e he
      have hef := List.mem_filter.mp he
      simpa using hef.2
    · intro r hr hc
      exact ⟨r, List.mem_filter.mpr ⟨hr, by simpa using hc⟩, rfl⟩
  case hstep =>
    rintro b e0 rem' ⟨hsel, hcover⟩
    have he0 := hsel e0 (List.mem_cons_self _ _)
    have hstep1 : (orgActionStep now b e0).1 = b.1.map (fun r =>
        if r.id = e0.id then
          { r with metadata := mset (merase e0.metadata "action") "synced_at" (.s now) }
        else r) := by
      show processOrganizationAction b.1 e0 now = _
      have ha : mget e0.metadata "action" = some (MVal.s "sync_to_external") := he0
      simp only [processOrganizationAction]
      rw [if_pos ha]
    constructor
    · intro e he
      exact hsel e (List.mem_cons_of_mem _ he)
    · rw [hstep1]
      intro r hr hc
      rcases List.mem_map.mp hr with ⟨r0, hr0mem, hr0eq⟩
      by_cases hid : r0.id = e0.id
      · rw [if_pos hid] at hr0eq
        rw [← hr0eq] at hc
        exact absurd hc (popped_action_not_contains _ _ _ _ _ (by decide))
      · rw [if_neg hid] at hr0eq
        subst hr0eq
        rcases hcover r0 hr0mem hc with ⟨e, he, hee⟩
        rcases List.mem_cons.mp he with rfl | he1
        · exact absurd hee.symm hid
        · exact ⟨e, he1, hee⟩
  intro r hr hc
  rcases hfin.2 r hr hc with ⟨e, he, _⟩
  cases he

/-- C8 (amended): running `process_pending_actions` twice in succession on a
store with no newly arrived intents processes zero rows the second time,
provided every row the first run selects completes its success path: code rows
carry no contradictory `action` marker, `updating` rows have a staged field,
`renaming` rows a non-empty staged `new_code`, `deleting` rows resolvable
identifiers and a successful Gateway deletion, and selected order rows a
truthy `new_status`. (Rows that no-op or fail — e.g. an `updating` row with
nothing staged — remain pending and are selected again, as the counterexample
shows.) -/
theorem idempotent_pass_amended (del : String → Bool)
    (sc : String → Option (Option String × Option String))
    (db : DB) (now now2 : String)
    (hn : CodesNodup db.codes)
    (hcodes : ∀ r ∈ db.codes.filter (fun r => decide (r.status ∈ pendingStatuses)),
      CodeRowReady del r)
    (horders : ∀ o ∈ db.orders.filter
      (fun r => decide (metaContains r.metadata "action" "update_status")),
      truthy (mget o.metadata "new_status") = true) :
    (processPendingActions del sc QFail.nofail
      (processPendingActions del sc QFail.nofail db now).db now2).counts
      = some ⟨0, 0, 0, 0⟩ := by
  have hfst : (processPendingActions del sc QFail.nofail db now).db =
      ⟨(processCodeActions del sc db.codes now).1,
       (processOrderActions false db.orders now).1,
       (processLinkActions false db.links now).1,
       (processOrganizationActions false db.orgs now).1⟩ := by
    simp [processPendingActions, QFail.nofail]
  rw [hfst]
  have g1 : ∀ cs2 : Store, (∀ r ∈ cs2, ¬ r.status ∈ pendingStatuses) →
      (processCodeActions del sc cs2 now2).2 = 0 := by
    intro cs2 hclear
    simp only [processCodeActions]
    rw [List.filter_eq_nil_iff.mpr (fun a ha => by simpa using hclear a ha)]
    rfl
  have g2 : ∀ os2 : List OrderRow,
      (∀ r ∈ os2, ¬ metaContains r.metadata "action" "update_status") →
      (processOrderActions false os2 now2).2 = 0 := by
    intro os2 hclear
    simp only [processOrderActions]
    rw [if_neg (by simp)]
    rw [List.filter_eq_nil_iff.mpr (fun a ha => by simpa using hclear a ha)]
    rfl
  have g3 : ∀ ls2 : List LinkRow,
      (∀ r ∈ ls2, ¬ metaContains r.metadata "action" "create_short_url") →
      (processLinkActions false ls2 now2).2 = 0 := by
    intro ls2 hclear
    simp only [processLinkActions]
    rw [if_neg (by simp)]
    rw [List.filter_eq_nil_iff.mpr (fun a ha => by simpa using hclear a ha)]
    rfl
  have g4 : ∀ gs2 : List OrgRow,
      (∀ r ∈ gs2, ¬ metaContains r.metadata "action" "sync_to_external") →
      (processOrganizationActions false gs2 now2).2 = 0 := by
    intro gs2 hclear
    simp only [processOrganizationActions]
    rw [if_neg (by simp)]
    rw [List.filter_eq_nil_iff.mpr (fun a ha => by simpa using hclear a ha)]
    rfl
  have e1 := g1 _ (processCodeActions_clears_pending del sc db.codes now hn hcodes)
  have e2 := g2 _ (processOrderActions_clears db.orders now horders)
  have e3 := g3 _ (processLinkActions_clears db.links now)
  have e4 := g4 _ (processOrganizationActions_clears db.orgs now)
  simp [processPendingActions, QFail.nofail, e1, e2, e3, e4]

/-- Counterexample to C8 as stated: an `updating` row with no staged
`new_<field>` values is selected and processed as a warned no-op that leaves
it in `updating`, so the second invocation selects and processes it again
(one row, not zero). -/
theorem idempotence_counterexample :
    (processPendingActions (fun _ => true) (fun _ => none) QFail.nofail
      ⟨[⟨"U1", "discount", "updating", [], none⟩], [], [], []⟩ "te").counts
      = some ⟨1, 0, 0, 0⟩ ∧
    (processPendingActions (fun _ => true) (fun _ => none) QFail.nofail
      (processPendingActions (fun _ => true) (fun _ => none) QFail.nofail
        ⟨[⟨"U1", "discount", "updating", [], none⟩], [], [], []⟩ "te").db "tf").counts
      = some ⟨1, 0, 0, 0⟩ ∧
    ¬ (processPendingActions (fun _ => true) (fun _ => none) QFail.nofail
      (processPendingActions (fun _ => true) (fun _ => none) QFail.nofail
        ⟨[⟨"U1", "discount", "updating", [], none⟩], [], [], []⟩ "te").db "tf").counts
      = some ⟨0, 0, 0, 0⟩ :=
  ⟨rfl, rfl, by decide⟩

/-- Witness for `idempotent_pass_amended`: a `creating` code row and an
`update_status` order row are both fully resolved by the first pass, and the
second pass processes zero rows in every category. -/
theorem idempotent_pass_amended_witness :
    (processPendingActions (fun _ => true) (fun _ => none) QFail.nofail
      (processPendingActions (fun _ => true) (fun _ => none) QFail.nofail
        ⟨[⟨"C2", "discount", "creating", [], none⟩],
         [⟨"O2", "pending",
           [("action", .s "update_status"), ("new_status", .s "completed")]⟩],
         [], []⟩ "tg").db "th").counts = some ⟨0, 0, 0, 0⟩ :=
  idempotent_pass_amended (fun _ => true) (fun _ => none)
    ⟨[⟨"C2", "discount", "creating", [], none⟩],
     [⟨"O2", "pending",
       [("action", .s "update_status"), ("new_status", .s "completed")]⟩],
     [], []⟩ "tg" "th"
    (by simp [CodesNodup])
    (by
      intro r hr
      have hreq : r = ⟨"C2", "discount", "creating", [], none⟩ := by
        have := by simpa using hr
        exact this.1
      subst hreq
      exact ⟨rfl, fun h => absurd h (by decide), fun h => absurd h (by decide),
        fun h => absurd h (by decide)⟩)
    (by decide)
